import Mathlib

/-!
# A verification model of `jsdb` (ludlovian/jsdb)

`jsdb` is a small file-backed JSON document store.  Records live in memory,
reachable through a set of indexes (a mandatory unique primary index plus
optional secondary indexes, unique or multi-valued, optionally sparse), and
are persisted to an append-only newline-delimited JSON log which is replayed
on open (`hydrate`) and compacted (`rewrite`).

This file is a shallow embedding of the JavaScript sources:

* `src/dbindex.mjs` — the two index variants (`Index`, `UniqueIndex`) with
  `linkValueToDoc` / `unlinkValueFromDoc` / `addDoc` / `removeDoc` /
  `find` / `findOne`;
* `src/datastore.mjs` — `addDoc` (upsert with multi-index rollback),
  `removeDoc`, `hydrate`, `rewrite`, `ensureIndex`, `deleteIndex`, `exec`;
* `src/util.mjs` — `getId` / `hashString` (primary-key generation),
  `cleanObject`, `stringify` / `parse` (record codec with the `$date`
  sentinel);
* `src/queue.js` together with `Datastore.exec` — the FIFO operation gate
  and the load bootstrap.

JavaScript `Map`s are modelled as association lists in insertion order,
JavaScript `Set`s as duplicate-free lists in insertion order, and object
identity (`===` on records) via an explicit `ref` tag on documents: the
code allocates a fresh frozen object for every accepted record, so distinct
live records always have distinct references.  32-bit arithmetic
(`| 0`-style coercions produced by `<<`, `&`) is modelled on `Int` with
explicit reductions modulo `2^32` / `2^31`.
-/

namespace Jsdb

/-! ## JavaScript primitive values

Index keys are the values a record carries at an indexed field.  The code
stores them directly as `Map` keys, so only primitive values are relevant
(an object or array used as a `Map` key would be compared by reference and
can never be looked up again; `removeDoc`/`findOne` pass freshly destructured
values).  `undefv` models JavaScript `undefined` (a missing field), which is
a legitimate `Map` key distinct from `null`. -/

inductive Key where
  | undefv : Key
  | null : Key
  | boolv : Bool → Key
  | intv : Int → Key
  | strv : String → Key
deriving DecidableEq, Repr

/-- `value == null` in JavaScript: true exactly for `null` and `undefined`. -/
def Key.nullish : Key → Bool
  | .undefv => true
  | .null => true
  | _ => false

/-- A field value is either a primitive or an array of primitives: arrays are
special-cased by `addDoc`/`removeDoc` (`Array.isArray(value)`), which link the
record under every element. -/
inductive Val where
  | prim : Key → Val
  | arr : List Key → Val
deriving DecidableEq, Repr

/-- A record.  `ref` models JavaScript object identity (`===`): the store
freezes a fresh object per accepted record, so two distinct live records have
distinct `ref`s.  Fields are in insertion order, as in a JS object. -/
structure Doc where
  ref : Nat
  fields : List (String × Val)
deriving DecidableEq, Repr

/-- `doc[field]` — property access; a missing field reads as `undefined`. -/
def Doc.valOf (d : Doc) (f : String) : Val :=
  match d.fields.find? (fun p => p.1 = f) with
  | some p => p.2
  | none => .prim .undefv

/-- The list of keys a document is linked under for field `f`: the array
elements if the value is an array, otherwise the value itself
(`Array.isArray(value) ? value.forEach(...) : linkValueToDoc(value, doc)`). -/
def Doc.keysOf (d : Doc) (f : String) : List Key :=
  match d.valOf f with
  | .prim k => [k]
  | .arr ks => ks

/-! ## Association lists with JavaScript `Map` semantics

`alookup` is `Map.get`, `aset` is `Map.set` on an existing key (replace in
place), `apush` is `Map.set` on an absent key (append), `aerase` is
`Map.delete`.  A JS `Map` never holds two entries with the same key; states
reachable by the code satisfy `NodupKeys`. -/

def alookup {α β : Type} [DecidableEq α] (m : List (α × β)) (k : α) : Option β :=
  match m with
  | [] => none
  | (k', v) :: tl => if k' = k then some v else alookup tl k

def aset {α β : Type} [DecidableEq α] (m : List (α × β)) (k : α) (v : β) : List (α × β) :=
  match m with
  | [] => []
  | (k', v') :: tl => if k' = k then (k', v) :: tl else (k', v') :: aset tl k v

def aerase {α β : Type} [DecidableEq α] (m : List (α × β)) (k : α) : List (α × β) :=
  match m with
  | [] => []
  | (k', v') :: tl => if k' = k then tl else (k', v') :: aerase tl k

/-- The keys of a map carry no duplicates (true of every JS `Map`). -/
def NodupKeys {α β : Type} [DecidableEq α] (m : List (α × β)) : Prop :=
  (m.map Prod.fst).Nodup

theorem alookup_eq_none {α β : Type} [DecidableEq α] {m : List (α × β)} {k : α} :
    alookup m k = none ↔ ∀ v, (k, v) ∉ m := by
  induction m with
  | nil => simp [alookup]
  | cons hd tl ih =>
    obtain ⟨k', v'⟩ := hd
    by_cases h : k' = k
    · subst h
      simp only [alookup, if_pos rfl]
      constructor
      · intro hc; cases hc
      · intro hall
        exact absurd (List.mem_cons_self _ _) (hall v')
    · simp only [alookup, if_neg h, ih, List.mem_cons]
      constructor
      · intro hall v hv
        rcases hv with hv | hv
        · exact h (congrArg Prod.fst hv).symm
        · exact hall v hv
      · intro hall v hv
        exact hall v (Or.inr hv)

theorem alookup_mem {α β : Type} [DecidableEq α] {m : List (α × β)} {k : α} {v : β}
    (h : alookup m k = some v) : (k, v) ∈ m := by
  induction m with
  | nil => simp [alookup] at h
  | cons hd tl ih =>
    obtain ⟨k', v'⟩ := hd
    by_cases hk : k' = k
    · subst hk
      simp [alookup] at h
      simp [h]
    · simp [alookup, hk] at h
      exact List.mem_cons_of_mem _ (ih h)

theorem alookup_aset {α β : Type} [DecidableEq α] {m : List (α × β)} {k k' : α} {v : β} :
    alookup (aset m k v) k' =
      if k' = k ∧ (alookup m k).isSome then some v else alookup m k' := by
  induction m with
  | nil => simp [alookup, aset]
  | cons hd tl ih =>
    obtain ⟨k₀, v₀⟩ := hd
    by_cases h0 : k₀ = k
    · subst h0
      by_cases h1 : k₀ = k'
      · subst h1; simp [aset, alookup]
      · simp [aset, alookup, h1, Ne.symm h1]
    · by_cases h1 : k₀ = k'
      · subst h1; simp [aset, alookup, h0, Ne.symm h0]
      · simp [aset, alookup, h0, h1, ih]

theorem alookup_apush {α β : Type} [DecidableEq α] {m : List (α × β)} {k k' : α} {v : β}
    (hnew : alookup m k = none) :
    alookup (m ++ [(k, v)]) k' = if k' = k then some v else alookup m k' := by
  induction m with
  | nil =>
    by_cases h : k = k'
    · subst h; simp [alookup]
    · simp [alookup, h, Ne.symm h]
  | cons hd tl ih =>
    obtain ⟨k₀, v₀⟩ := hd
    by_cases h0 : k₀ = k
    · simp [alookup, h0] at hnew
    · simp only [alookup, if_neg h0] at hnew
      by_cases h1 : k₀ = k'
      · subst h1
        simp [alookup, h0]
      · simp [alookup, h1, ih hnew]

theorem alookup_aerase {α β : Type} [DecidableEq α] {m : List (α × β)} {k k' : α}
    (hnd : NodupKeys m) :
    alookup (aerase m k) k' = if k' = k then none else alookup m k' := by
  induction m with
  | nil => simp [alookup, aerase]
  | cons hd tl ih =>
    obtain ⟨k₀, v₀⟩ := hd
    simp only [NodupKeys, List.map_cons, List.nodup_cons] at hnd
    by_cases h0 : k₀ = k
    · subst h0
      have herase : aerase ((k₀, v₀) :: tl) k₀ = tl := by simp [aerase]
      rw [herase]
      by_cases h1 : k' = k₀
      · subst h1
        rw [if_pos rfl, alookup_eq_none]
        intro v hv
        exact hnd.1 (List.mem_map.mpr ⟨(k', v), hv, rfl⟩)
      · simp [alookup, h1, Ne.symm h1]
    · simp only [aerase, if_neg h0]
      by_cases h1 : k₀ = k'
      · subst h1
        simp [alookup, h0]
      · simp [alookup, h1, ih hnd.2]

theorem aset_map_fst {α β : Type} [DecidableEq α] (m : List (α × β)) (k : α) (v : β) :
    (aset m k v).map Prod.fst = m.map Prod.fst := by
  induction m with
  | nil => simp [aset]
  | cons hd tl ih =>
    obtain ⟨k₀, v₀⟩ := hd
    by_cases h0 : k₀ = k <;> simp [aset, h0, ih]

theorem aerase_map_fst_sublist {α β : Type} [DecidableEq α] (m : List (α × β)) (k : α) :
    ((aerase m k).map Prod.fst).Sublist (m.map Prod.fst) := by
  induction m with
  | nil => simp [aerase]
  | cons hd tl ih =>
    obtain ⟨k₀, v₀⟩ := hd
    by_cases h0 : k₀ = k
    · simp only [aerase, if_pos h0, List.map_cons]
      exact List.sublist_cons_self _ _
    · simp only [aerase, if_neg h0, List.map_cons]
      exact ih.cons₂ _

theorem nodupKeys_aset {α β : Type} [DecidableEq α] {m : List (α × β)} {k : α} {v : β}
    (h : NodupKeys m) : NodupKeys (aset m k v) := by
  unfold NodupKeys at h ⊢
  rwa [aset_map_fst]

theorem nodupKeys_aerase {α β : Type} [DecidableEq α] {m : List (α × β)} {k : α}
    (h : NodupKeys m) : NodupKeys (aerase m k) :=
  (aerase_map_fst_sublist m k).nodup h

theorem nodupKeys_apush {α β : Type} [DecidableEq α] {m : List (α × β)} {k : α} {v : β}
    (h : NodupKeys m) (hnew : alookup m k = none) : NodupKeys (m ++ [(k, v)]) := by
  unfold NodupKeys
  simp only [List.map_append, List.map_cons, List.map_nil]
  rw [List.nodup_append]
  refine ⟨h, List.nodup_singleton k, ?_⟩
  intro a ha hb
  simp only [List.mem_singleton] at hb
  subst hb
  rcases List.mem_map.mp ha with ⟨p, hp, hpk⟩
  rw [alookup_eq_none] at hnew
  exact hnew p.2 (by rwa [show (a, p.2) = p from Prod.ext hpk.symm rfl])

/-! ## Errors (`src/errors.mjs`)

`KeyViolation` carries the offending record and the field name; `NotExists`
the attempted record; `NoIndex` the missing index's name. -/

inductive DbErr where
  | keyViolation : Doc → String → DbErr
  | notExists : Doc → DbErr
  | noIndex : String → DbErr
  | jsError : String → DbErr
deriving DecidableEq, Repr

/-! ## Indexes (`src/dbindex.mjs`)

Two variants share one interface: the generic `Index` keeps
`Map key → Set of docs`, the `UniqueIndex` keeps `Map key → doc`.
`Index.create` picks the variant from `options.unique`. -/

structure IxOpts where
  fieldName : String
  unique : Bool := false
  sparse : Bool := false
deriving DecidableEq, Repr

inductive IxData where
  | uni : List (Key × Doc) → IxData
  | multi : List (Key × List Doc) → IxData
deriving DecidableEq, Repr

structure Ix where
  opts : IxOpts
  data : IxData
deriving DecidableEq, Repr

/-- `Index.create(options)`: a `UniqueIndex` when `options.unique`, else a
generic `Index`; the backing `Map` starts empty. -/
def Ix.create (opts : IxOpts) : Ix :=
  { opts := opts, data := if opts.unique then .uni [] else .multi [] }

/-- `linkValueToDoc(value, doc)`.  Both variants skip null-ish values on a
sparse index.  The generic variant adds the doc to the `Set` under the key
(creating a singleton set for a fresh key); the unique variant throws
`KeyViolation(doc, fieldName)` whenever the key is already present
(`this.data.has(value)`), otherwise stores the doc. -/
def Ix.linkValueToDoc (ix : Ix) (k : Key) (d : Doc) : Except DbErr Ix :=
  if k.nullish ∧ ix.opts.sparse then .ok ix
  else
    match ix.data with
    | .uni m =>
      match alookup m k with
      | some _ => .error (.keyViolation d ix.opts.fieldName)
      | none => .ok { ix with data := .uni (m ++ [(k, d)]) }
    | .multi m =>
      match alookup m k with
      | some l => .ok { ix with data := .multi (aset m k (if d ∈ l then l else l ++ [d])) }
      | none => .ok { ix with data := .multi (m ++ [(k, [d])]) }

/-- `unlinkValueFromDoc(value, doc)`.  The generic variant deletes the doc
from the `Set` under the key, dropping the key when the set empties; a
missing key or absent doc is a no-op.  The unique variant deletes the key
only when the stored doc is the very doc being removed
(`this.data.get(value) === doc`). -/
def Ix.unlinkValueFromDoc (ix : Ix) (k : Key) (d : Doc) : Ix :=
  match ix.data with
  | .uni m =>
    if alookup m k = some d then { ix with data := .uni (aerase m k) } else ix
  | .multi m =>
    match alookup m k with
    | none => ix
    | some l =>
      let l' := l.erase d
      if l' = [] then { ix with data := .multi (aerase m k) }
      else { ix with data := .multi (aset m k l') }

/-- The key list `addDoc`/`removeDoc` iterate over: the array elements when
`doc[fieldName]` is an array, otherwise the single value. -/
def Ix.docKeys (ix : Ix) (d : Doc) : List Key :=
  d.keysOf ix.opts.fieldName

/-- The `value.forEach(v => this.linkValueToDoc(v, doc))` loop.  A throw from
`linkValueToDoc` aborts the loop, leaving the links made so far in place —
the pair returns the partially mutated index together with the error. -/
def Ix.linkKeys (ix : Ix) (d : Doc) : List Key → Ix × Option DbErr
  | [] => (ix, none)
  | k :: ks =>
    match ix.linkValueToDoc k d with
    | .ok ix' => ix'.linkKeys d ks
    | .error e => (ix, some e)

/-- `addDoc(doc)`: link the doc under each of its keys. -/
def Ix.addDoc (ix : Ix) (d : Doc) : Ix × Option DbErr :=
  ix.linkKeys d (ix.docKeys d)

/-- The `value.forEach(v => this.unlinkValueFromDoc(v, doc))` loop (never
throws). -/
def Ix.unlinkKeys (ix : Ix) (d : Doc) : List Key → Ix
  | [] => ix
  | k :: ks => (ix.unlinkValueFromDoc k d).unlinkKeys d ks

/-- `removeDoc(doc)`: unlink the doc from each of its keys. -/
def Ix.removeDoc (ix : Ix) (d : Doc) : Ix :=
  ix.unlinkKeys d (ix.docKeys d)

/-- `find(value)` on a generic (multi-valued) index:
`Array.from(this.data.get(value))`, or `[]` when the key is absent. -/
def Ix.find (ix : Ix) (k : Key) : List Doc :=
  match ix.data with
  | .uni m => (alookup m k).toList
  | .multi m => (alookup m k).getD []

/-- `findOne(value)`: the stored doc on a unique index
(`this.data.get(value)`); the first element of the set on a generic index
(`docs.values().next().value`). -/
def Ix.findOne (ix : Ix) (k : Key) : Option Doc :=
  match ix.data with
  | .uni m => alookup m k
  | .multi m => (alookup m k).getD [] |>.head?

/-- `d` is linked under key `k` in the index: it is the stored doc (unique)
or a member of the stored set (multi-valued). -/
def Ix.Linked (ix : Ix) (k : Key) (d : Doc) : Prop :=
  match ix.data with
  | .uni m => alookup m k = some d
  | .multi m => d ∈ (alookup m k).getD []

instance (ix : Ix) (k : Key) (d : Doc) : Decidable (ix.Linked k d) :=
  match hd : ix.data with
  | .uni m => decidable_of_iff (alookup m k = some d) (by simp [Ix.Linked, hd])
  | .multi m => decidable_of_iff (d ∈ (alookup m k).getD []) (by simp [Ix.Linked, hd])

/-! ### Claim C4 — unique-index `add` / `remove` policy

`UniqueIndex.linkValueToDoc` throws whenever `this.data.has(value)` holds:
it does not compare the stored record against the one being added, so adding
a record that is itself already linked under the key raises `KeyViolation`
as well — the claim's "a *different* record is already linked" direction
fails.  `unlinkValueFromDoc` is confirmed: it only deletes when the stored
record is the one being removed. -/

/-- Claim C4 (amended): on a unique index whose record has a scalar value `k`
at the indexed field, `add` raises `KeyViolation` carrying the index's field
name exactly when the key is not skipped (null-ish value on a sparse index)
and some record — possibly `R` itself — is already stored under `k`; and
`remove` leaves the index unchanged whenever the stored record under `k` is
not `R` itself. -/
theorem claim_C4_unique_add_remove_policy
    (opts : IxOpts) (m : List (Key × Doc)) (R : Doc) (k : Key)
    (hk : R.valOf opts.fieldName = .prim k) :
    (((Ix.addDoc ⟨opts, .uni m⟩ R).2 = some (.keyViolation R opts.fieldName) ↔
        (¬(k.nullish ∧ opts.sparse) ∧ (alookup m k).isSome)) ∧
      (alookup m k ≠ some R → Ix.removeDoc ⟨opts, .uni m⟩ R = ⟨opts, .uni m⟩)) := by
  constructor
  · simp only [Ix.addDoc, Ix.docKeys, Doc.keysOf, hk]
    simp only [Ix.linkKeys, Ix.linkValueToDoc]
    by_cases hs : (k.nullish ∧ (Ix.mk opts (.uni m)).opts.sparse : Prop)
    · rw [if_pos hs]
      simp only [Ix.linkKeys]
      constructor
      · intro h; cases h
      · intro h; exact absurd hs h.1
    · rw [if_neg hs]
      cases hl : alookup m k with
      | none => simp [Ix.linkKeys, hl, hs]
      | some d' => simp [hl, hs]
  · intro hne
    simp only [Ix.removeDoc, Ix.docKeys, Doc.keysOf, hk]
    simp only [Ix.unlinkKeys, Ix.unlinkValueFromDoc, if_neg hne]

/-- The record already linked in the counterexample index: `R` itself. -/
def c4R : Doc := ⟨1, [("foo", .prim (.strv "x"))]⟩

/-- A unique index on `foo` in which `c4R` is linked under `"x"`. -/
def c4Ix : Ix := ⟨⟨"foo", true, false⟩, .uni [(.strv "x", c4R)]⟩

/-- Claim C4 counterexample: adding `c4R` to a unique index in which the
record linked under its key is `c4R` itself still raises `KeyViolation` —
yet no *different* record is linked under the key (`findOne` returns `c4R`).
This falsifies the claim's "if and only if a different record is already
linked" at a concrete input. -/
theorem claim_C4_counterexample :
    (c4Ix.addDoc c4R).2 = some (.keyViolation c4R "foo") ∧
      c4Ix.findOne (.strv "x") = some c4R := by
  constructor <;> rfl

/-- A different record sharing the key `"x"`, for the witness. -/
def c4E : Doc := ⟨2, [("foo", .prim (.strv "x"))]⟩

/-- A unique index on `foo` in which `c4E` is linked under `"x"`. -/
def c4IxE : Ix := ⟨⟨"foo", true, false⟩, .uni [(.strv "x", c4E)]⟩

/-- Witness for the amended claim C4 at a concrete input. -/
theorem claim_C4_witness :
    c4R.valOf "foo" = .prim (.strv "x") ∧
    (((Ix.addDoc ⟨⟨"foo", true, false⟩, .uni [(.strv "x", c4E)]⟩ c4R).2 =
          some (.keyViolation c4R "foo") ↔
        (¬((Key.strv "x").nullish ∧ (⟨"foo", true, false⟩ : IxOpts).sparse) ∧
          (alookup [((Key.strv "x"), c4E)] (.strv "x")).isSome)) ∧
      (alookup [((Key.strv "x"), c4E)] (.strv "x") ≠ some c4R →
        Ix.removeDoc ⟨⟨"foo", true, false⟩, .uni [(.strv "x", c4E)]⟩ c4R =
          ⟨⟨"foo", true, false⟩, .uni [(.strv "x", c4E)]⟩)) :=
  ⟨rfl, claim_C4_unique_add_remove_policy ⟨"foo", true, false⟩
    [(.strv "x", c4E)] c4R (.strv "x") rfl⟩

/-! ### Index well-formedness

Properties every index reachable by the code satisfies, because JS `Map`s
never hold duplicate keys and JS `Set`s never hold duplicate members, and
because `unlinkValueFromDoc` deletes a key as soon as its set empties. -/

theorem mem_aset {β : Type} {m : List (Key × β)} {k : Key} {v : β} {q : Key × β}
    (h : q ∈ aset m k v) : q ∈ m ∨ q.2 = v := by
  induction m with
  | nil => simp [aset] at h
  | cons hd tl ih =>
    obtain ⟨k₀, v₀⟩ := hd
    by_cases h0 : k₀ = k
    · simp only [aset, if_pos h0, List.mem_cons] at h
      rcases h with h | h
      · exact Or.inr (congrArg Prod.snd h)
      · exact Or.inl (List.mem_cons_of_mem _ h)
    · simp only [aset, if_neg h0, List.mem_cons] at h
      rcases h with h | h
      · exact Or.inl (by simp [h])
      · rcases ih h with h2 | h2
        · exact Or.inl (List.mem_cons_of_mem _ h2)
        · exact Or.inr h2

theorem aerase_sublist {β : Type} (m : List (Key × β)) (k : Key) :
    (aerase m k).Sublist m := by
  induction m with
  | nil => simp [aerase]
  | cons hd tl ih =>
    obtain ⟨k₀, v₀⟩ := hd
    by_cases h0 : k₀ = k
    · simp only [aerase, if_pos h0]
      exact List.sublist_cons_self _ _
    · simp only [aerase, if_neg h0]
      exact ih.cons₂ _

/-- Well-formedness of an index's backing store: the `Map`'s keys are
duplicate-free; in the multi-valued variant every stored `Set` is non-empty
(`unlinkValueFromDoc` drops emptied keys) and duplicate-free.  Every index
the code can build satisfies this. -/
def Ix.Inv (ix : Ix) : Prop :=
  match ix.data with
  | .uni m => NodupKeys m
  | .multi m => NodupKeys m ∧ ∀ p ∈ m, p.2 ≠ [] ∧ p.2.Nodup

instance (ix : Ix) : Decidable ix.Inv :=
  match hd : ix.data with
  | .uni m => decidable_of_iff ((m.map Prod.fst).Nodup) (by simp [Ix.Inv, hd, NodupKeys])
  | .multi m =>
    decidable_of_iff ((m.map Prod.fst).Nodup ∧ ∀ p ∈ m, p.2 ≠ [] ∧ p.2.Nodup)
      (by simp [Ix.Inv, hd, NodupKeys])

/-- The index's `Map` has an entry for key `k`. -/
def Ix.hasKey (ix : Ix) (k : Key) : Prop :=
  match ix.data with
  | .uni m => (alookup m k).isSome
  | .multi m => (alookup m k).isSome

instance (ix : Ix) (k : Key) : Decidable (ix.hasKey k) :=
  match hd : ix.data with
  | .uni m => decidable_of_iff (alookup m k).isSome (by simp [Ix.hasKey, hd])
  | .multi m => decidable_of_iff (alookup m k).isSome (by simp [Ix.hasKey, hd])

theorem Inv_linkValueToDoc {ix ix' : Ix} {k : Key} {d : Doc}
    (hinv : ix.Inv) (h : ix.linkValueToDoc k d = .ok ix') : ix'.Inv := by
  obtain ⟨opts, data⟩ := ix
  unfold Ix.linkValueToDoc at h
  split_ifs at h with hs
  · cases h; exact hinv
  · cases data with
    | uni m =>
      cases hl : alookup m k with
      | some d' => simp [hl] at h
      | none =>
        simp only [hl] at h
        cases h
        exact nodupKeys_apush hinv hl
    | multi m =>
      obtain ⟨hnd, hmem⟩ := hinv
      cases hl : alookup m k with
      | some l =>
        simp only [hl] at h
        cases h
        have hent := hmem _ (alookup_mem hl)
        refine ⟨by simpa [Ix.Inv, NodupKeys, aset_map_fst] using hnd, ?_⟩
        intro p hp
        rcases mem_aset hp with hp2 | hp2
        · exact hmem p hp2
        · rw [hp2]
          by_cases hdl : d ∈ l

          · simpa [hdl] using hent
          · simp only [if_neg hdl]
            refine ⟨by simp, ?_⟩
            rw [List.nodup_append]
            have hdisj : l.Disjoint [d] := by
              intro a ha hb
              rw [List.mem_singleton] at hb
              exact hdl (hb ▸ ha)
            exact ⟨hent.2, List.nodup_singleton d, hdisj⟩
      | none =>
        simp only [hl] at h
        cases h
        refine ⟨nodupKeys_apush hnd hl, ?_⟩
        intro p hp
        rcases List.mem_append.mp hp with hp2 | hp2
        · exact hmem p hp2
        · simp only [List.mem_singleton] at hp2
          simp [hp2]

theorem Inv_unlinkValueFromDoc {ix : Ix} {k : Key} {d : Doc}
    (hinv : ix.Inv) : (ix.unlinkValueFromDoc k d).Inv := by
  obtain ⟨opts, data⟩ := ix
  cases data with
  | uni m =>
    unfold Ix.unlinkValueFromDoc
    dsimp only
    split_ifs with h
    · exact nodupKeys_aerase hinv
    · exact hinv
  | multi m =>
    obtain ⟨hnd, hmem⟩ := hinv
    unfold Ix.unlinkValueFromDoc
    dsimp only
    cases hl : alookup m k with
    | none => exact ⟨hnd, hmem⟩
    | some l =>
      dsimp only
      split_ifs with h
      · refine ⟨nodupKeys_aerase hnd, ?_⟩
        intro p hp
        exact hmem p ((aerase_sublist m k).mem hp)
      · refine ⟨by simpa [Ix.Inv, NodupKeys, aset_map_fst] using hnd, ?_⟩
        intro p hp
        rcases mem_aset hp with hp2 | hp2
        · exact hmem p hp2
        · rw [hp2]
          exact ⟨h, ((hmem _ (alookup_mem hl)).2).erase d⟩

/-- `linkValueToDoc` keeps the options and the variant of the index. -/
theorem linkValueToDoc_shape {ix ix' : Ix} {k : Key} {d : Doc}
    (h : ix.linkValueToDoc k d = .ok ix') :
    ix'.opts = ix.opts ∧ (∀ m, ix.data = .uni m → ∃ m', ix'.data = .uni m') ∧
      (∀ m, ix.data = .multi m → ∃ m', ix'.data = .multi m') := by
  obtain ⟨opts, data⟩ := ix
  unfold Ix.linkValueToDoc at h
  split_ifs at h with hs
  · cases h
    exact ⟨rfl, fun m hm => ⟨m, hm⟩, fun m hm => ⟨m, hm⟩⟩
  · cases data with
    | uni m =>
      cases hl : alookup m k with
      | some d' => simp [hl] at h
      | none =>
        simp only [hl] at h
        cases h
        refine ⟨rfl, ?_, ?_⟩
        · intro m₀ hm
          exact ⟨m ++ [(k, d)], rfl⟩
        · intro m₀ hm
          simp at hm
    | multi m =>
      cases hl : alookup m k with
      | some l =>
        simp only [hl] at h
        cases h
        refine ⟨rfl, ?_, ?_⟩
        · intro m₀ hm
          simp at hm
        · intro m₀ hm
          exact ⟨aset m k (if d ∈ l then l else l ++ [d]), rfl⟩
      | none =>
        simp only [hl] at h
        cases h
        refine ⟨rfl, ?_, ?_⟩
        · intro m₀ hm
          simp at hm
        · intro m₀ hm
          exact ⟨m ++ [(k, [d])], rfl⟩

/-- `unlinkValueFromDoc` keeps the options and the variant of the index. -/
theorem unlinkValueFromDoc_shape (ix : Ix) (k : Key) (d : Doc) :
    (ix.unlinkValueFromDoc k d).opts = ix.opts ∧
      (∀ m, ix.data = .uni m → ∃ m', (ix.unlinkValueFromDoc k d).data = .uni m') ∧
      (∀ m, ix.data = .multi m → ∃ m', (ix.unlinkValueFromDoc k d).data = .multi m') := by
  obtain ⟨opts, data⟩ := ix
  cases data with
  | uni m =>
    unfold Ix.unlinkValueFromDoc
    dsimp only
    split_ifs with h
    · refine ⟨rfl, ?_, ?_⟩
      · intro m₀ hm
        exact ⟨aerase m k, rfl⟩
      · intro m₀ hm
        simp at hm
    · refine ⟨rfl, ?_, ?_⟩
      · intro m₀ hm
        exact ⟨m₀, hm⟩
      · intro m₀ hm
        simp at hm
  | multi m =>
    unfold Ix.unlinkValueFromDoc
    dsimp only
    cases hl : alookup m k with
    | none =>
      refine ⟨rfl, ?_, ?_⟩
      · intro m₀ hm
        simp at hm
      · intro m₀ hm
        exact ⟨m₀, hm⟩
    | some l =>
      dsimp only
      split_ifs with h
      · refine ⟨rfl, ?_, ?_⟩
        · intro m₀ hm
          simp at hm
        · intro m₀ hm
          exact ⟨aerase m k, rfl⟩
      · refine ⟨rfl, ?_, ?_⟩
        · intro m₀ hm
          simp at hm
        · intro m₀ hm
          exact ⟨aset m k (l.erase d), rfl⟩

/-- The variant tag of an index (the code dispatches by class; the set of
variants is closed). -/
def Ix.isMulti (ix : Ix) : Bool :=
  match ix.data with
  | .uni _ => false
  | .multi _ => true

theorem isMulti_iff {ix : Ix} : ix.isMulti = true ↔ ∃ m, ix.data = .multi m := by
  unfold Ix.isMulti
  cases hd : ix.data <;> simp

theorem isUni_iff {ix : Ix} : ix.isMulti = false ↔ ∃ m, ix.data = .uni m := by
  unfold Ix.isMulti
  cases hd : ix.data <;> simp

theorem shape_linkValueToDoc {ix ix' : Ix} {k : Key} {d : Doc}
    (h : ix.linkValueToDoc k d = .ok ix') :
    ix'.opts = ix.opts ∧ ix'.isMulti = ix.isMulti := by
  obtain ⟨hopts, huni, hmulti⟩ := linkValueToDoc_shape h
  refine ⟨hopts, ?_⟩
  cases hd : ix.data with
  | uni m =>
    obtain ⟨m', hm'⟩ := huni m hd
    simp [Ix.isMulti, hd, hm']
  | multi m =>
    obtain ⟨m', hm'⟩ := hmulti m hd
    simp [Ix.isMulti, hd, hm']

theorem shape_unlinkValueFromDoc (ix : Ix) (k : Key) (d : Doc) :
    (ix.unlinkValueFromDoc k d).opts = ix.opts ∧
      (ix.unlinkValueFromDoc k d).isMulti = ix.isMulti := by
  obtain ⟨hopts, huni, hmulti⟩ := unlinkValueFromDoc_shape ix k d
  refine ⟨hopts, ?_⟩
  cases hd : ix.data with
  | uni m =>
    obtain ⟨m', hm'⟩ := huni m hd
    simp [Ix.isMulti, hd, hm']
  | multi m =>
    obtain ⟨m', hm'⟩ := hmulti m hd
    simp [Ix.isMulti, hd, hm']

theorem shape_linkKeys {ix : Ix} {d : Doc} (ks : List Key) :
    ((ix.linkKeys d ks).1).opts = ix.opts ∧ ((ix.linkKeys d ks).1).isMulti = ix.isMulti := by
  induction ks generalizing ix with
  | nil => exact ⟨rfl, rfl⟩
  | cons k ks ih =>
    unfold Ix.linkKeys
    cases hlk : ix.linkValueToDoc k d with
    | ok ix' =>
      obtain ⟨h1, h2⟩ := shape_linkValueToDoc hlk
      obtain ⟨h3, h4⟩ := @ih ix'
      exact ⟨h3.trans h1, h4.trans h2⟩
    | error e => exact ⟨rfl, rfl⟩

theorem shape_unlinkKeys {ix : Ix} {d : Doc} (ks : List Key) :
    (ix.unlinkKeys d ks).opts = ix.opts ∧ (ix.unlinkKeys d ks).isMulti = ix.isMulti := by
  induction ks generalizing ix with
  | nil => exact ⟨rfl, rfl⟩
  | cons k ks ih =>
    unfold Ix.unlinkKeys
    obtain ⟨h1, h2⟩ := shape_unlinkValueFromDoc ix k d
    obtain ⟨h3, h4⟩ := @ih (ix.unlinkValueFromDoc k d)
    exact ⟨h3.trans h1, h4.trans h2⟩

theorem shape_addDoc (ix : Ix) (d : Doc) :
    ((ix.addDoc d).1).opts = ix.opts ∧ ((ix.addDoc d).1).isMulti = ix.isMulti :=
  shape_linkKeys _

theorem shape_removeDoc (ix : Ix) (d : Doc) :
    (ix.removeDoc d).opts = ix.opts ∧ (ix.removeDoc d).isMulti = ix.isMulti :=
  shape_unlinkKeys _

theorem Inv_linkKeys {ix : Ix} {d : Doc} (hinv : ix.Inv) (ks : List Key) :
    ((ix.linkKeys d ks).1).Inv := by
  induction ks generalizing ix with
  | nil => exact hinv
  | cons k ks ih =>
    unfold Ix.linkKeys
    cases hlk : ix.linkValueToDoc k d with
    | ok ix' => exact ih (Inv_linkValueToDoc hinv hlk)
    | error e => exact hinv

theorem Inv_unlinkKeys {ix : Ix} {d : Doc} (hinv : ix.Inv) (ks : List Key) :
    (ix.unlinkKeys d ks).Inv := by
  induction ks generalizing ix with
  | nil => exact hinv
  | cons k ks ih =>
    unfold Ix.unlinkKeys
    exact ih (Inv_unlinkValueFromDoc hinv)

theorem Inv_addDoc {ix : Ix} (d : Doc) (hinv : ix.Inv) : ((ix.addDoc d).1).Inv :=
  Inv_linkKeys hinv _

theorem Inv_removeDoc {ix : Ix} (d : Doc) (hinv : ix.Inv) : (ix.removeDoc d).Inv :=
  Inv_unlinkKeys hinv _

/-! ### Claim C9 — multi-valued index invariant

The invariant holds of the empty index, is preserved by every `addDoc` /
`removeDoc`, and makes `find` return a non-empty collection exactly on the
`Map`'s keys. -/

/-- A mutation on one index: the operations `addDoc` / `removeDoc` the store
invokes during upsert, delete, back-fill and rollback. -/
inductive MOp where
  | add : Doc → MOp
  | remove : Doc → MOp
deriving DecidableEq, Repr

/-- Apply one mutation to an index (on a generic index `addDoc` cannot
throw, so the resulting state is the whole effect). -/
def Ix.applyOp (ix : Ix) : MOp → Ix
  | .add d => (ix.addDoc d).1
  | .remove d => ix.removeDoc d

/-- Apply a sequence of mutations left to right. -/
def Ix.applyOps (ix : Ix) (ops : List MOp) : Ix := ops.foldl Ix.applyOp ix

theorem Inv_applyOps {ix : Ix} (hinv : ix.Inv) (ops : List MOp) :
    (ix.applyOps ops).Inv := by
  induction ops generalizing ix with
  | nil => exact hinv
  | cons op ops ih =>
    cases op with
    | add d => exact ih (Inv_addDoc d hinv)
    | remove d => exact ih (Inv_removeDoc d hinv)

theorem isMulti_applyOps (ix : Ix) (ops : List MOp) :
    (ix.applyOps ops).isMulti = ix.isMulti := by
  induction ops generalizing ix with
  | nil => rfl
  | cons op ops ih =>
    cases op with
    | add d => exact (ih _).trans (shape_addDoc ix d).2
    | remove d => exact (ih _).trans (shape_removeDoc ix d).2

theorem multi_find_ne_nil_iff {ix : Ix} {m : List (Key × List Doc)}
    (hm : ix.data = .multi m) (hinv : ix.Inv) (v : Key) :
    ix.find v ≠ [] ↔ ix.hasKey v := by
  unfold Ix.Inv at hinv
  rw [hm] at hinv
  obtain ⟨hnd, hmem⟩ := hinv
  unfold Ix.find Ix.hasKey
  rw [hm]
  cases hl : alookup m v with
  | none => simp [hl]
  | some l => simp [hl, (hmem _ (alookup_mem hl)).1]

/-- Claim C9: starting from any well-formed generic (multi-valued) index,
any sequence of `addDoc` / `removeDoc` operations preserves the invariant
that every stored key maps to a non-empty duplicate-free set of records;
under the invariant, `find v` returns a non-empty collection exactly when
`v` is a key of the `Map`; and unlinking the last record under a key
deletes the key itself. -/
theorem claim_C9_multi_index_invariant (ix : Ix) (m : List (Key × List Doc))
    (hm : ix.data = .multi m) (hinv : ix.Inv) (ops : List MOp) :
    (ix.applyOps ops).Inv ∧
      (∀ v, (ix.applyOps ops).find v ≠ [] ↔ (ix.applyOps ops).hasKey v) ∧
      (∀ v d, alookup m v = some [d] → ¬(ix.unlinkValueFromDoc v d).hasKey v) := by
  refine ⟨Inv_applyOps hinv ops, ?_, ?_⟩
  · intro v
    have hmulti : (ix.applyOps ops).isMulti = true := by
      rw [isMulti_applyOps]
      rw [isMulti_iff]
      exact ⟨m, hm⟩
    obtain ⟨m', hm'⟩ := isMulti_iff.mp hmulti
    exact multi_find_ne_nil_iff hm' (Inv_applyOps hinv ops) v
  · intro v d hl
    unfold Ix.Inv at hinv
    rw [hm] at hinv
    obtain ⟨hnd, hmem⟩ := hinv
    unfold Ix.unlinkValueFromDoc Ix.hasKey
    rw [hm]
    dsimp only
    rw [hl]
    dsimp only
    have herase : List.erase [d] d = [] := by simp
    rw [if_pos herase]
    dsimp only
    rw [alookup_aerase hnd, if_pos rfl]
    simp

/-! ### Membership characterization of `linkValueToDoc` / `unlinkValueFromDoc`

How one link/unlink changes the `Linked` relation.  These drive the C1
rollback-atomicity proof. -/

/-- The key is skipped by `linkValueToDoc`: null-ish value on a sparse
index. -/
def Ix.skipKey (ix : Ix) (k : Key) : Prop :=
  k.nullish ∧ ix.opts.sparse

instance (ix : Ix) (k : Key) : Decidable (ix.skipKey k) := by
  unfold Ix.skipKey; infer_instance

/-- The keys a doc actually gets linked under: its keys minus the skipped
ones. -/
def Ix.activeKeys (ix : Ix) (d : Doc) : List Key :=
  (ix.docKeys d).filter (fun k => !(k.nullish && ix.opts.sparse))

theorem mem_activeKeys {ix : Ix} {d : Doc} {k : Key} :
    k ∈ ix.activeKeys d ↔ k ∈ ix.docKeys d ∧ ¬ix.skipKey k := by
  unfold Ix.activeKeys Ix.skipKey
  rw [List.mem_filter]
  constructor
  · rintro ⟨h1, h2⟩
    refine ⟨h1, ?_⟩
    rintro ⟨hn, hs⟩
    rw [hn, hs] at h2
    cases h2
  · rintro ⟨h1, h2⟩
    refine ⟨h1, ?_⟩
    cases hn : k.nullish with
    | false => simp
    | true =>
      cases hs : ix.opts.sparse with
      | false => simp
      | true => exact absurd ⟨hn, hs⟩ h2

theorem docKeys_congr {ix ix' : Ix} (h : ix'.opts = ix.opts) (d : Doc) :
    ix'.docKeys d = ix.docKeys d := by
  unfold Ix.docKeys
  rw [h]

theorem activeKeys_congr {ix ix' : Ix} (h : ix'.opts = ix.opts) (d : Doc) :
    ix'.activeKeys d = ix.activeKeys d := by
  unfold Ix.activeKeys Ix.docKeys
  rw [h]

theorem skipKey_congr {ix ix' : Ix} (h : ix'.opts = ix.opts) (k : Key) :
    ix'.skipKey k ↔ ix.skipKey k := by
  unfold Ix.skipKey
  rw [h]

/-- No record is stored twice under one key of a unique index. -/
theorem uni_linked_functional {ix : Ix} {m : List (Key × Doc)} {k : Key} {d d' : Doc}
    (hm : ix.data = .uni m) (h1 : ix.Linked k d) (h2 : ix.Linked k d') : d = d' := by
  unfold Ix.Linked at h1 h2
  rw [hm] at h1 h2
  dsimp only at h1 h2
  rw [h1] at h2
  exact (Option.some_injective _ h2)

theorem erase_eq_nil {l : List Doc} {d : Doc} (h : l.erase d = []) :
    l = [] ∨ l = [d] := by
  cases l with
  | nil => exact Or.inl rfl
  | cons x xs =>
    by_cases hx : x = d
    · subst hx
      rw [List.erase_cons_head] at h
      subst h
      exact Or.inr rfl
    · rw [List.erase_cons_tail (by simpa using hx)] at h
      cases h

/-- Effect of a successful `linkValueToDoc` on `Linked`: the doc becomes
linked under the key (unless the key was skipped); nothing else changes. -/
theorem linked_linkValueToDoc {ix ix' : Ix} {k : Key} {d : Doc}
    (h : ix.linkValueToDoc k d = .ok ix') (k' : Key) (d' : Doc) :
    ix'.Linked k' d' ↔ (ix.Linked k' d' ∨ (k' = k ∧ d' = d ∧ ¬ix.skipKey k)) := by
  obtain ⟨opts, data⟩ := ix
  unfold Ix.linkValueToDoc at h
  unfold Ix.skipKey
  split_ifs at h with hs
  · cases h
    constructor
    · exact Or.inl
    · rintro (h1 | ⟨rfl, rfl, hna⟩)
      · exact h1
      · exact absurd hs hna
  · cases data with
    | uni m =>
      cases hl : alookup m k with
      | some d₀ => simp [hl] at h
      | none =>
        simp only [hl] at h
        cases h
        unfold Ix.Linked
        dsimp only
        rw [alookup_apush hl]
        by_cases hk : k' = k
        · subst hk
          rw [if_pos rfl, hl]
          constructor
          · intro hsome
            exact Or.inr ⟨rfl, (Option.some_injective _ hsome).symm, hs⟩
          · rintro (h1 | ⟨-, rfl, -⟩)
            · cases h1
            · rfl
        · rw [if_neg hk]
          constructor
          · exact Or.inl
          · rintro (h1 | ⟨rfl, -, -⟩)
            · exact h1
            · exact absurd rfl hk
    | multi m =>
      cases hl : alookup m k with
      | some l =>
        simp only [hl] at h
        cases h
        unfold Ix.Linked
        dsimp only
        rw [alookup_aset]
        by_cases hk : k' = k
        · subst hk
          rw [if_pos ⟨rfl, by simp [hl]⟩, hl]
          dsimp only [Option.getD_some]
          by_cases hdl : d ∈ l
          · rw [if_pos hdl]
            constructor
            · exact Or.inl
            · rintro (h1 | ⟨-, rfl, -⟩)
              · exact h1
              · exact hdl
          · rw [if_neg hdl]
            rw [List.mem_append, List.mem_singleton]
            constructor
            · rintro (h1 | rfl)
              · exact Or.inl h1
              · exact Or.inr ⟨rfl, rfl, hs⟩
            · rintro (h1 | ⟨-, rfl, -⟩)
              · exact Or.inl h1
              · exact Or.inr rfl
        · rw [if_neg (by rintro ⟨rfl, -⟩; exact hk rfl)]
          constructor
          · exact Or.inl
          · rintro (h1 | ⟨rfl, -, -⟩)
            · exact h1
            · exact absurd rfl hk
      | none =>
        simp only [hl] at h
        cases h
        unfold Ix.Linked
        dsimp only
        rw [alookup_apush hl]
        by_cases hk : k' = k
        · subst hk
          rw [if_pos rfl, hl]
          dsimp only [Option.getD_some, Option.getD_none]
          rw [List.mem_singleton]
          constructor
          · rintro rfl
            exact Or.inr ⟨rfl, rfl, hs⟩
          · rintro (h1 | ⟨-, rfl, -⟩)
            · cases h1
            · rfl
        · rw [if_neg hk]
          constructor
          · exact Or.inl
          · rintro (h1 | ⟨rfl, -, -⟩)
            · exact h1
            · exact absurd rfl hk

/-- Effect of `unlinkValueFromDoc` on `Linked` (for well-formed data): the
doc stops being linked under the key; nothing else changes. -/
theorem linked_unlinkValueFromDoc {ix : Ix} (hinv : ix.Inv) (k : Key) (d : Doc)
    (k' : Key) (d' : Doc) :
    (ix.unlinkValueFromDoc k d).Linked k' d' ↔
      (ix.Linked k' d' ∧ ¬(k' = k ∧ d' = d)) := by
  obtain ⟨opts, data⟩ := ix
  cases data with
  | uni m =>
    unfold Ix.unlinkValueFromDoc
    dsimp only
    unfold Ix.Linked
    dsimp only
    split_ifs with hget
    · dsimp only
      rw [alookup_aerase hinv]
      by_cases hk : k' = k
      · subst hk
        rw [if_pos rfl]
        constructor
        · intro h1; cases h1
        · rintro ⟨h1, h2⟩
          rw [hget] at h1
          exact absurd ⟨rfl, (Option.some_injective _ h1).symm⟩ h2
      · rw [if_neg hk]
        constructor
        · intro h1
          exact ⟨h1, by rintro ⟨rfl, -⟩; exact hk rfl⟩
        · exact And.left
    · constructor
      · intro h1
        refine ⟨h1, ?_⟩
        rintro ⟨rfl, rfl⟩
        exact hget h1
      · exact And.left
  | multi m =>
    obtain ⟨hnd, hmem⟩ := hinv
    unfold Ix.unlinkValueFromDoc
    dsimp only
    unfold Ix.Linked
    dsimp only
    cases hl : alookup m k with
    | none =>
      dsimp only
      constructor
      · intro h1
        refine ⟨h1, ?_⟩
        rintro ⟨rfl, rfl⟩
        rw [hl] at h1
        cases h1
      · exact And.left
    | some l =>
      have hlnd : l.Nodup := (hmem _ (alookup_mem hl)).2
      dsimp only
      split_ifs with hnil
      · dsimp only
        rw [alookup_aerase hnd]
        by_cases hk : k' = k
        · subst hk
          rw [if_pos rfl]
          constructor
          · intro h1; cases h1
          · rintro ⟨h1, h2⟩
            rw [hl] at h1
            dsimp only [Option.getD_some] at h1
            rcases erase_eq_nil hnil with rfl | rfl
            · cases h1
            · rw [List.mem_singleton] at h1
              exact absurd ⟨rfl, h1⟩ h2
        · rw [if_neg hk]
          constructor
          · intro h1
            exact ⟨h1, by rintro ⟨rfl, -⟩; exact hk rfl⟩
          · exact And.left
      · dsimp only
        rw [alookup_aset]
        by_cases hk : k' = k
        · subst hk
          rw [if_pos ⟨rfl, by simp [hl]⟩, hl]
          dsimp only [Option.getD_some]
          rw [hlnd.mem_erase_iff]
          constructor
          · rintro ⟨h1, h2⟩
            exact ⟨h2, by rintro ⟨-, rfl⟩; exact h1 rfl⟩
          · rintro ⟨h1, h2⟩
            exact ⟨by rintro rfl; exact h2 ⟨rfl, rfl⟩, h1⟩
        · rw [if_neg (by rintro ⟨rfl, -⟩; exact hk rfl)]
          constructor
          · intro h1
            exact ⟨h1, by rintro ⟨rfl, -⟩; exact hk rfl⟩
          · exact And.left

/-- Effect of the whole `forEach` link loop on `Linked`.  `S` is the set of
keys actually linked before the loop finished or threw: every key in `S` is
a non-skipped key of the loop, when the loop finishes without error `S`
covers all non-skipped keys, and membership changes exactly by `d`-links
under `S`. -/
theorem linked_linkKeys {d : Doc} (ks : List Key) (ix : Ix) :
    ∃ S : List Key,
      (∀ k ∈ S, k ∈ ks ∧ ¬ix.skipKey k) ∧
      ((ix.linkKeys d ks).2 = none → ∀ k ∈ ks, ¬ix.skipKey k → k ∈ S) ∧
      (∀ k' d', ((ix.linkKeys d ks).1).Linked k' d' ↔
        (ix.Linked k' d' ∨ (d' = d ∧ k' ∈ S))) := by
  induction ks generalizing ix with
  | nil =>
    refine ⟨[], by simp, by simp, ?_⟩
    intro k' d'
    simp [Ix.linkKeys]
  | cons k ks ih =>
    rcases hlk : ix.linkValueToDoc k d with e | ix'
    · refine ⟨[], by simp, ?_, ?_⟩
      · intro hnone
        unfold Ix.linkKeys at hnone
        rw [hlk] at hnone
        cases hnone
      · intro k' d'
        unfold Ix.linkKeys
        rw [hlk]
        simp
    · obtain ⟨S, hS1, hS2, hS3⟩ := @ih ix'
      have hopts := (shape_linkValueToDoc hlk).1
      have hrun : ix.linkKeys d (k :: ks) = ix'.linkKeys d ks := by
        simp only [Ix.linkKeys, hlk]
      by_cases hskip : ix.skipKey k
      · have hskip' : (k.nullish = true ∧ ix.opts.sparse = true) := hskip
        have hix : ix' = ix := by
          unfold Ix.linkValueToDoc at hlk
          rw [if_pos hskip'] at hlk
          cases hlk
          rfl
        subst hix
        refine ⟨S, ?_, ?_, ?_⟩
        · intro k0 hk0
          obtain ⟨h1, h2⟩ := hS1 k0 hk0
          exact ⟨List.mem_cons_of_mem _ h1, h2⟩
        · intro hnone k0 hk0 hact
          rw [hrun] at hnone
          rcases List.mem_cons.mp hk0 with rfl | hk0
          · exact absurd hskip hact
          · exact hS2 hnone k0 hk0 hact
        · intro k' d'
          rw [hrun]
          exact hS3 k' d'
      · refine ⟨k :: S, ?_, ?_, ?_⟩
        · intro k0 hk0
          rcases List.mem_cons.mp hk0 with rfl | hk0
          · exact ⟨List.mem_cons_self _ _, hskip⟩
          · obtain ⟨h1, h2⟩ := hS1 k0 hk0
            rw [skipKey_congr hopts] at h2
            exact ⟨List.mem_cons_of_mem _ h1, h2⟩
        · intro hnone k0 hk0 hact
          rw [hrun] at hnone
          rcases List.mem_cons.mp hk0 with rfl | hk0
          · exact List.mem_cons_self _ _
          · exact List.mem_cons_of_mem _
              (hS2 hnone k0 hk0 (fun h => hact ((skipKey_congr hopts k0).mp h)))
        · intro k' d'
          rw [hrun, hS3 k' d', linked_linkValueToDoc hlk k' d']
          rw [List.mem_cons]
          constructor
          · rintro ((h1 | ⟨rfl, rfl, -⟩) | ⟨rfl, h2⟩)
            · exact Or.inl h1
            · exact Or.inr ⟨rfl, Or.inl rfl⟩
            · exact Or.inr ⟨rfl, Or.inr h2⟩
          · rintro (h1 | ⟨rfl, (rfl | h2)⟩)
            · exact Or.inl (Or.inl h1)
            · exact Or.inl (Or.inr ⟨rfl, rfl, hskip⟩)
            · exact Or.inr ⟨rfl, h2⟩

/-- Effect of the whole `forEach` unlink loop on `Linked`. -/
theorem linked_unlinkKeys {ix : Ix} (hinv : ix.Inv) (d : Doc) (ks : List Key) :
    ∀ k' d', (ix.unlinkKeys d ks).Linked k' d' ↔
      (ix.Linked k' d' ∧ ¬(d' = d ∧ k' ∈ ks)) := by
  induction ks generalizing ix with
  | nil =>
    intro k' d'
    unfold Ix.unlinkKeys
    simp
  | cons k ks ih =>
    intro k' d'
    unfold Ix.unlinkKeys
    rw [ih (Inv_unlinkValueFromDoc hinv) k' d',
      linked_unlinkValueFromDoc hinv k d k' d', List.mem_cons]
    constructor
    · rintro ⟨⟨h1, h2⟩, h3⟩
      refine ⟨h1, ?_⟩
      rintro ⟨rfl, (rfl | hk)⟩
      · exact h2 ⟨rfl, rfl⟩
      · exact h3 ⟨rfl, hk⟩
    · rintro ⟨h1, h2⟩
      refine ⟨⟨h1, ?_⟩, ?_⟩
      · rintro ⟨rfl, rfl⟩
        exact h2 ⟨rfl, Or.inl rfl⟩
      · rintro ⟨rfl, hk⟩
        exact h2 ⟨rfl, Or.inr hk⟩

/-- Effect of `removeDoc` on `Linked`. -/
theorem linked_removeDoc {ix : Ix} (hinv : ix.Inv) (d : Doc) (k' : Key) (d' : Doc) :
    (ix.removeDoc d).Linked k' d' ↔
      (ix.Linked k' d' ∧ ¬(d' = d ∧ k' ∈ ix.docKeys d)) :=
  linked_unlinkKeys hinv d (ix.docKeys d) k' d'

/-- Effect of a successful `addDoc` on `Linked`: the doc is linked under
exactly its active keys. -/
theorem linked_addDoc_ok {ix : Ix} {d : Doc} (hok : (ix.addDoc d).2 = none)
    (k' : Key) (d' : Doc) :
    ((ix.addDoc d).1).Linked k' d' ↔
      (ix.Linked k' d' ∨ (d' = d ∧ k' ∈ ix.activeKeys d)) := by
  obtain ⟨S, hS1, hS2, hS3⟩ := linked_linkKeys (d := d) (ix.docKeys d) ix
  rw [Ix.addDoc] at hok ⊢
  rw [hS3 k' d']
  constructor
  · rintro (h1 | ⟨rfl, h2⟩)
    · exact Or.inl h1
    · obtain ⟨h3, h4⟩ := hS1 _ h2
      exact Or.inr ⟨rfl, mem_activeKeys.mpr ⟨h3, h4⟩⟩
  · rintro (h1 | ⟨rfl, h2⟩)
    · exact Or.inl h1
    · obtain ⟨h3, h4⟩ := mem_activeKeys.mp h2
      exact Or.inr ⟨rfl, hS2 hok _ h3 h4⟩

/-- Effect of a failed `addDoc` on `Linked`: the doc is linked under some
subset of its active keys (the prefix linked before the throw). -/
theorem linked_addDoc_err {ix : Ix} {d : Doc} :
    ∃ S : List Key, (∀ k ∈ S, k ∈ ix.activeKeys d) ∧
      ∀ k' d', ((ix.addDoc d).1).Linked k' d' ↔
        (ix.Linked k' d' ∨ (d' = d ∧ k' ∈ S)) := by
  obtain ⟨S, hS1, hS2, hS3⟩ := linked_linkKeys (d := d) (ix.docKeys d) ix
  refine ⟨S, ?_, hS3⟩
  intro k hk
  obtain ⟨h1, h2⟩ := hS1 k hk
  exact mem_activeKeys.mpr ⟨h1, h2⟩

theorem notSkip_bool_iff (sp : Bool) (k : Key) :
    ((!(k.nullish && sp)) = true) ↔ ¬(k.nullish = true ∧ sp = true) := by
  cases hk : k.nullish <;> cases sp <;> simp

/-- On a unique index, linking a duplicate-free list of currently-free keys
cannot throw. -/
theorem uni_linkKeys_ok {opts : IxOpts} {d : Doc} (ks : List Key)
    (m : List (Key × Doc))
    (hnd : (ks.filter (fun k => !(k.nullish && opts.sparse))).Nodup)
    (hfree : ∀ k ∈ ks, ¬(k.nullish = true ∧ opts.sparse = true) → alookup m k = none) :
    ((Ix.mk opts (.uni m)).linkKeys d ks).2 = none := by
  induction ks generalizing m with
  | nil => rfl
  | cons k ks ih =>
    by_cases hskip : (k.nullish = true ∧ opts.sparse = true)
    · have hlk : (Ix.mk opts (.uni m)).linkValueToDoc k d = .ok (Ix.mk opts (.uni m)) := by
        unfold Ix.linkValueToDoc
        rw [if_pos hskip]
      rw [show (Ix.mk opts (.uni m)).linkKeys d (k :: ks) =
          (Ix.mk opts (.uni m)).linkKeys d ks from by simp only [Ix.linkKeys, hlk]]
      have hfilter : (k :: ks).filter (fun k => !(k.nullish && opts.sparse)) =
          ks.filter (fun k => !(k.nullish && opts.sparse)) := by
        rw [List.filter_cons_of_neg]
        simp [hskip.1, hskip.2]
      rw [hfilter] at hnd
      exact ih m hnd (fun k0 hk0 hact => hfree k0 (List.mem_cons_of_mem _ hk0) hact)
    · have hfreek := hfree k (List.mem_cons_self _ _) hskip
      have hlk : (Ix.mk opts (.uni m)).linkValueToDoc k d =
          .ok (Ix.mk opts (.uni (m ++ [(k, d)]))) := by
        unfold Ix.linkValueToDoc
        rw [if_neg hskip]
        dsimp only
        rw [hfreek]
      rw [show (Ix.mk opts (.uni m)).linkKeys d (k :: ks) =
          (Ix.mk opts (.uni (m ++ [(k, d)]))).linkKeys d ks from by
        simp only [Ix.linkKeys, hlk]]
      have hfilter : (k :: ks).filter (fun k => !(k.nullish && opts.sparse)) =
          k :: ks.filter (fun k => !(k.nullish && opts.sparse)) := by
        rw [List.filter_cons_of_pos]
        exact (notSkip_bool_iff opts.sparse k).mpr hskip
      rw [hfilter, List.nodup_cons] at hnd
      refine ih (m ++ [(k, d)]) hnd.2 ?_
      intro k0 hk0 hact
      have hk0ne : k0 ≠ k := by
        rintro rfl
        exact hnd.1 (List.mem_filter.mpr ⟨hk0, (notSkip_bool_iff opts.sparse k0).mpr hact⟩)
      rw [alookup_apush hfreek, if_neg hk0ne]
      exact hfree k0 (List.mem_cons_of_mem _ hk0) hact

/-- On a generic (multi-valued) index the link loop never throws. -/
theorem multi_linkKeys_ok {ix : Ix} (hm : ix.isMulti = true) (d : Doc)
    (ks : List Key) : (ix.linkKeys d ks).2 = none := by
  induction ks generalizing ix with
  | nil => rfl
  | cons k ks ih =>
    rcases hlk : ix.linkValueToDoc k d with e | ix'
    · exfalso
      obtain ⟨m, hdata⟩ := isMulti_iff.mp hm
      obtain ⟨opts, data⟩ := ix
      dsimp only at hdata
      subst hdata
      unfold Ix.linkValueToDoc at hlk
      split_ifs at hlk with hs <;> cases h2 : alookup m k <;> simp [h2] at hlk
    · rw [show ix.linkKeys d (k :: ks) = ix'.linkKeys d ks from by
        simp only [Ix.linkKeys, hlk]]
      exact ih ((shape_linkValueToDoc hlk).2.trans hm)

/-- `C` is a fresh record: no index entry stores it (true of the frozen
object `addDoc` allocates, which no index has seen). -/
def Ix.FreshDoc (ix : Ix) (C : Doc) : Prop :=
  match ix.data with
  | .uni m => ∀ p ∈ m, p.2 ≠ C
  | .multi m => ∀ p ∈ m, C ∉ p.2

instance (ix : Ix) (C : Doc) : Decidable (ix.FreshDoc C) :=
  match hd : ix.data with
  | .uni m => decidable_of_iff (∀ p ∈ m, p.2 ≠ C) (by simp [Ix.FreshDoc, hd])
  | .multi m => decidable_of_iff (∀ p ∈ m, C ∉ p.2) (by simp [Ix.FreshDoc, hd])

theorem freshDoc_not_linked {ix : Ix} {C : Doc} (h : ix.FreshDoc C) (k : Key) :
    ¬ix.Linked k C := by
  obtain ⟨opts, data⟩ := ix
  cases data with
  | uni m =>
    unfold Ix.FreshDoc at h
    unfold Ix.Linked
    dsimp only at h ⊢
    intro hlk
    exact h _ (alookup_mem hlk) rfl
  | multi m =>
    unfold Ix.FreshDoc at h
    unfold Ix.Linked
    dsimp only at h ⊢
    intro hlk
    cases hl : alookup m k with
    | none => rw [hl] at hlk; cases hlk
    | some l =>
      rw [hl] at hlk
      dsimp only [Option.getD_some] at hlk
      exact h _ (alookup_mem hl) hlk

/-- The stored entries mention `E` only under its active keys. -/
def Ix.LinkedOnlyAt (ix : Ix) (E : Doc) : Prop :=
  match ix.data with
  | .uni m => ∀ p ∈ m, p.2 = E → p.1 ∈ ix.activeKeys E
  | .multi m => ∀ p ∈ m, E ∈ p.2 → p.1 ∈ ix.activeKeys E

instance (ix : Ix) (E : Doc) : Decidable (ix.LinkedOnlyAt E) :=
  match hd : ix.data with
  | .uni m => decidable_of_iff (∀ p ∈ m, p.2 = E → p.1 ∈ ix.activeKeys E)
      (by simp [Ix.LinkedOnlyAt, hd])
  | .multi m => decidable_of_iff (∀ p ∈ m, E ∈ p.2 → p.1 ∈ ix.activeKeys E)
      (by simp [Ix.LinkedOnlyAt, hd])

/-- `E` is linked in the index exactly as a live record is: under each of
its active keys and nowhere else.  Holds of every live record in every
index (spec invariant 1), in particular of the `olddoc` found by `addDoc`. -/
def Ix.WellLinked (ix : Ix) (E : Doc) : Prop :=
  (∀ k ∈ ix.activeKeys E, ix.Linked k E) ∧ ix.LinkedOnlyAt E

instance (ix : Ix) (E : Doc) : Decidable (ix.WellLinked E) := by
  unfold Ix.WellLinked
  infer_instance

theorem wellLinked_linked_iff {ix : Ix} {E : Doc} (h : ix.WellLinked E) (k : Key) :
    ix.Linked k E ↔ k ∈ ix.activeKeys E := by
  obtain ⟨h1, h2⟩ := h
  constructor
  · intro hlk
    obtain ⟨opts, data⟩ := ix
    cases data with
    | uni m =>
      unfold Ix.LinkedOnlyAt at h2
      unfold Ix.Linked at hlk
      dsimp only at h2 hlk
      exact h2 _ (alookup_mem hlk) rfl
    | multi m =>
      unfold Ix.LinkedOnlyAt at h2
      unfold Ix.Linked at hlk
      dsimp only at h2 hlk
      cases hl : alookup m k with
      | none => rw [hl] at hlk; cases hlk
      | some l =>
        rw [hl] at hlk
        dsimp only [Option.getD_some] at hlk
        exact h2 _ (alookup_mem hl) hlk
  · exact h1 k

theorem uni_lookup_none_of_not_linked {ix : Ix} {m : List (Key × Doc)} {k : Key}
    (hm : ix.data = .uni m) (h : ∀ d', ¬ix.Linked k d') : alookup m k = none := by
  cases hl : alookup m k with
  | none => rfl
  | some d₀ =>
    exfalso
    apply h d₀
    unfold Ix.Linked
    rw [hm]
    dsimp only
    exact hl

/-! ### Claim C1 — rollback atomicity of `Datastore.addDoc`

The try/catch of `datastore.mjs` `addDoc`: the forward `forEach` removes the
old doc (if any) from each index and links the candidate, stopping at the
first `KeyViolation`; the catch handler then, for every index, removes the
candidate, removes the old doc "just in case", and re-adds it. -/

/-- A wrapper for `uni_linkKeys_ok` stated through a `data` equation. -/
theorem uni_linkKeys_ok' {ix : Ix} {m : List (Key × Doc)} {d : Doc} (ks : List Key)
    (hdata : ix.data = .uni m)
    (hnd : (ks.filter (fun k => !(k.nullish && ix.opts.sparse))).Nodup)
    (hfree : ∀ k ∈ ks, ¬(k.nullish = true ∧ ix.opts.sparse = true) →
      alookup m k = none) :
    (ix.linkKeys d ks).2 = none := by
  obtain ⟨o, data⟩ := ix
  dsimp only at hdata hnd hfree ⊢
  subst hdata
  exact uni_linkKeys_ok ks m hnd hfree

/-- One index's share of the `addDoc` try-block:
`if (olddoc) ix.removeDoc(olddoc); ix.addDoc(doc)`. -/
def forwardStep (olddoc : Option Doc) (C : Doc) (ix : Ix) : Ix × Option DbErr :=
  match olddoc with
  | some E => (ix.removeDoc E).addDoc C
  | none => ix.addDoc C

/-- One index's share of the catch handler:
`ix.removeDoc(doc); if (olddoc) { ix.removeDoc(olddoc); ix.addDoc(olddoc) }`. -/
def rollbackStep (olddoc : Option Doc) (C : Doc) (ix : Ix) : Ix × Option DbErr :=
  match olddoc with
  | some E => ((ix.removeDoc C).removeDoc E).addDoc E
  | none => (ix.removeDoc C, none)

/-- Pre-call facts about one index under which the rollback is exact.  All
hold of every state the store reaches: well-formed backing maps, a freshly
frozen candidate object, and an `olddoc` that is linked like the live
record it is (under exactly its active keys, with no duplicate active key
on a unique index). -/
def RollbackPre (ix : Ix) (olddoc : Option Doc) (C : Doc) : Prop :=
  ix.Inv ∧ ix.FreshDoc C ∧
    match olddoc with
    | none => True
    | some E => ix.WellLinked E ∧ (ix.isMulti = false → (ix.activeKeys E).Nodup)

instance (ix : Ix) (olddoc : Option Doc) (C : Doc) :
    Decidable (RollbackPre ix olddoc C) :=
  match ho : olddoc with
  | none => decidable_of_iff (ix.Inv ∧ ix.FreshDoc C ∧ True)
      (by simp [RollbackPre])
  | some E => decidable_of_iff
      (ix.Inv ∧ ix.FreshDoc C ∧
        (ix.WellLinked E ∧ (ix.isMulti = false → (ix.activeKeys E).Nodup)))
      (by simp [RollbackPre])

/-- Core restoration argument: if the intermediate state `ixF` differs from
the pre-call state `ix` only by (possibly) having the old doc unlinked and
the candidate linked under a subset `S` of its active keys, then the
rollback step raises nothing and restores the pre-call `Linked` relation
exactly. -/
theorem rollbackStep_restores_core (ix ixF : Ix) (olddoc : Option Doc) (C : Doc)
    (bE : Bool) (S : List Key)
    (hpre : RollbackPre ix olddoc C)
    (hopts : ixF.opts = ix.opts)
    (hmulti : ixF.isMulti = ix.isMulti)
    (hFinv : ixF.Inv)
    (hS : ∀ k ∈ S, k ∈ ix.activeKeys C)
    (hmem : ∀ k d', ixF.Linked k d' ↔
      ((ix.Linked k d' ∧
        (bE = true → ∀ E, olddoc = some E → ¬(d' = E ∧ k ∈ ix.docKeys E))) ∨
        (d' = C ∧ k ∈ S))) :
    (rollbackStep olddoc C ixF).2 = none ∧
      ∀ k d', ((rollbackStep olddoc C ixF).1).Linked k d' ↔ ix.Linked k d' := by
  obtain ⟨hinv, hfresh, hold⟩ := hpre
  have h1inv : (ixF.removeDoc C).Inv := Inv_removeDoc C hFinv
  have h1opts : (ixF.removeDoc C).opts = ix.opts := (shape_removeDoc ixF C).1.trans hopts
  have h1multi : (ixF.removeDoc C).isMulti = ix.isMulti :=
    (shape_removeDoc ixF C).2.trans hmulti
  have h1 : ∀ k d', (ixF.removeDoc C).Linked k d' ↔
      (ix.Linked k d' ∧
        (bE = true → ∀ E, olddoc = some E → ¬(d' = E ∧ k ∈ ix.docKeys E))) := by
    intro k d'
    rw [linked_removeDoc hFinv C k d', hmem k d']
    constructor
    · rintro ⟨h2 | ⟨rfl, hkS⟩, h3⟩
      · exact h2
      · exact absurd ⟨rfl, by
          rw [docKeys_congr hopts]
          exact (mem_activeKeys.mp (hS _ hkS)).1⟩ h3
    · intro h2
      refine ⟨Or.inl h2, ?_⟩
      rintro ⟨rfl, -⟩
      exact freshDoc_not_linked hfresh k h2.1
  cases olddoc with
  | none =>
    refine ⟨rfl, ?_⟩
    intro k d'
    rw [show (rollbackStep none C ixF).1 = ixF.removeDoc C from rfl, h1 k d']
    constructor
    · exact And.left
    · intro h2
      exact ⟨h2, fun _ E hE => nomatch hE⟩
  | some E =>
    obtain ⟨hwl, hndE⟩ := hold
    have h2inv : ((ixF.removeDoc C).removeDoc E).Inv := Inv_removeDoc E h1inv
    have h2opts : ((ixF.removeDoc C).removeDoc E).opts = ix.opts :=
      (shape_removeDoc _ E).1.trans h1opts
    have h2multi : ((ixF.removeDoc C).removeDoc E).isMulti = ix.isMulti :=
      (shape_removeDoc _ E).2.trans h1multi
    have h2 : ∀ k d', ((ixF.removeDoc C).removeDoc E).Linked k d' ↔
        (ix.Linked k d' ∧ ¬(d' = E ∧ k ∈ ix.docKeys E)) := by
      intro k d'
      rw [linked_removeDoc h1inv E k d', h1 k d', docKeys_congr h1opts]
      constructor
      · rintro ⟨⟨h3, -⟩, h4⟩
        exact ⟨h3, h4⟩
      · rintro ⟨h3, h4⟩
        exact ⟨⟨h3, fun _ E' hE' => by cases hE'; exact h4⟩, h4⟩
    have hactE : ((ixF.removeDoc C).removeDoc E).activeKeys E = ix.activeKeys E :=
      activeKeys_congr h2opts E
    have hdkE : ((ixF.removeDoc C).removeDoc E).docKeys E = ix.docKeys E :=
      docKeys_congr h2opts E
    have hok : (((ixF.removeDoc C).removeDoc E).addDoc E).2 = none := by
      cases hm : ix.isMulti with
      | true =>
        exact multi_linkKeys_ok (h2multi.trans hm) E _
      | false =>
        obtain ⟨m₂, hm₂⟩ := isUni_iff.mp (h2multi.trans hm)
        obtain ⟨m₀, hm₀⟩ := isUni_iff.mp hm
        refine uni_linkKeys_ok' _ hm₂ ?_ ?_
        · have : (((ixF.removeDoc C).removeDoc E).docKeys E).filter
              (fun k => !(k.nullish && ((ixF.removeDoc C).removeDoc E).opts.sparse)) =
              ((ixF.removeDoc C).removeDoc E).activeKeys E := rfl
          rw [this, hactE]
          exact hndE hm
        · intro k hk hact
          refine uni_lookup_none_of_not_linked hm₂ ?_
          intro d' hd'
          rw [h2 k d'] at hd'
          obtain ⟨h3, h4⟩ := hd'
          rw [hdkE] at hk
          have hkact : k ∈ ix.activeKeys E := by
            rw [mem_activeKeys]
            refine ⟨hk, ?_⟩
            rw [show ix.skipKey k = (k.nullish = true ∧ ix.opts.sparse = true) from rfl]
            rw [← h2opts]
            exact hact
          have hdE : d' ≠ E := fun hde => h4 ⟨hde, (mem_activeKeys.mp hkact).1⟩
          have hlE : ix.Linked k E := (wellLinked_linked_iff hwl k).mpr hkact
          exact hdE (uni_linked_functional hm₀ h3 hlE)
    refine ⟨hok, ?_⟩
    intro k d'
    rw [show (rollbackStep (some E) C ixF).1 =
        (((ixF.removeDoc C).removeDoc E).addDoc E).1 from rfl]
    rw [linked_addDoc_ok hok k d', h2 k d', hactE]
    constructor
    · rintro (⟨h3, -⟩ | ⟨rfl, h3⟩)
      · exact h3
      · exact (wellLinked_linked_iff hwl k).mpr h3
    · intro h3
      by_cases hdE : d' = E
      · subst hdE
        exact Or.inr ⟨rfl, (wellLinked_linked_iff hwl k).mp h3⟩
      · exact Or.inl ⟨h3, fun h4 => hdE h4.1⟩

/-- Rollback of an index the forward pass never touched (those after the
throwing index) raises nothing and leaves its contents intact. -/
theorem rollbackStep_untouched (ix : Ix) (olddoc : Option Doc) (C : Doc)
    (hpre : RollbackPre ix olddoc C) :
    (rollbackStep olddoc C ix).2 = none ∧
      ∀ k d', ((rollbackStep olddoc C ix).1).Linked k d' ↔ ix.Linked k d' := by
  refine rollbackStep_restores_core ix ix olddoc C false [] hpre rfl rfl hpre.1
    (by simp) ?_
  intro k d'
  constructor
  · intro h
    exact Or.inl ⟨h, fun h' => nomatch h'⟩
  · rintro (⟨h, -⟩ | ⟨-, h⟩)
    · exact h
    · cases h

/-- Rollback of an index the forward pass processed (fully, or partially up
to a throw) raises nothing and restores its pre-call contents exactly. -/
theorem rollbackStep_after_forward (ix : Ix) (olddoc : Option Doc) (C : Doc)
    (hpre : RollbackPre ix olddoc C) :
    (rollbackStep olddoc C (forwardStep olddoc C ix).1).2 = none ∧
      ∀ k d', ((rollbackStep olddoc C (forwardStep olddoc C ix).1).1).Linked k d' ↔
        ix.Linked k d' := by
  obtain ⟨hinv, hfresh, hold⟩ := hpre
  cases olddoc with
  | none =>
    obtain ⟨S, hSsub, hSmem⟩ := @linked_addDoc_err ix C
    refine rollbackStep_restores_core ix (ix.addDoc C).1 none C false S
      ⟨hinv, hfresh, trivial⟩ (shape_addDoc ix C).1 (shape_addDoc ix C).2
      (Inv_linkKeys hinv _) hSsub ?_
    intro k d'
    rw [hSmem k d']
    constructor
    · rintro (h | h)
      · exact Or.inl ⟨h, fun h' => nomatch h'⟩
      · exact Or.inr h
    · rintro (⟨h, -⟩ | h)
      · exact Or.inl h
      · exact Or.inr h
  | some E =>
    obtain ⟨hwl, hndE⟩ := hold
    have h1inv : (ix.removeDoc E).Inv := Inv_removeDoc E hinv
    have h1opts : (ix.removeDoc E).opts = ix.opts := (shape_removeDoc ix E).1
    obtain ⟨S, hSsub, hSmem⟩ := @linked_addDoc_err (ix.removeDoc E) C
    refine rollbackStep_restores_core ix ((ix.removeDoc E).addDoc C).1 (some E) C
      true S ⟨hinv, hfresh, hwl, hndE⟩
      ((shape_addDoc _ C).1.trans h1opts)
      ((shape_addDoc _ C).2.trans (shape_removeDoc ix E).2)
      (Inv_linkKeys h1inv _) ?_ ?_
    · intro k hk
      have := hSsub k hk
      rwa [activeKeys_congr h1opts] at this
    · intro k d'
      rw [hSmem k d', linked_removeDoc hinv E k d']
      constructor
      · rintro (⟨h2, h3⟩ | h2)
        · exact Or.inl ⟨h2, fun _ E' hE' => by cases hE'; exact h3⟩
        · exact Or.inr h2
      · rintro (⟨h2, h3⟩ | h2)
        · exact Or.inl ⟨h2, h3 rfl E rfl⟩
        · exact Or.inr h2

/-- The only error the link loop can raise is a `KeyViolation` carrying the
doc being linked. -/
theorem linkKeys_err_shape {ix : Ix} {d : Doc} {ks : List Key} {e : DbErr}
    (h : (ix.linkKeys d ks).2 = some e) : ∃ fn, e = .keyViolation d fn := by
  induction ks generalizing ix with
  | nil => cases h
  | cons k ks ih =>
    rcases hlk : ix.linkValueToDoc k d with e' | ix'
    · have hrun : ix.linkKeys d (k :: ks) = (ix, some e') := by
        simp only [Ix.linkKeys, hlk]
      rw [hrun] at h
      cases h
      obtain ⟨opts, data⟩ := ix
      by_cases hs : (k.nullish = true ∧ (IxOpts.sparse opts) = true)
      · exfalso
        unfold Ix.linkValueToDoc at hlk
        rw [if_pos hs] at hlk
        cases hlk
      · cases data with
        | uni m =>
          unfold Ix.linkValueToDoc at hlk
          rw [if_neg hs] at hlk
          dsimp only at hlk
          cases h2 : alookup m k with
          | some d₀ =>
            rw [h2] at hlk
            dsimp only at hlk
            cases hlk
            exact ⟨opts.fieldName, rfl⟩
          | none => rw [h2] at hlk; cases hlk
        | multi m =>
          exfalso
          unfold Ix.linkValueToDoc at hlk
          rw [if_neg hs] at hlk
          dsimp only at hlk
          cases h2 : alookup m k with
          | some l => rw [h2] at hlk; cases hlk
          | none => rw [h2] at hlk; cases hlk
    · have hrun : ix.linkKeys d (k :: ks) = ix'.linkKeys d ks := by
        simp only [Ix.linkKeys, hlk]
      rw [hrun] at h
      exact ih h

theorem forwardStep_err_shape {ix : Ix} {olddoc : Option Doc} {C : Doc} {e : DbErr}
    (h : (forwardStep olddoc C ix).2 = some e) : ∃ fn, e = .keyViolation C fn := by
  cases olddoc with
  | some E => exact linkKeys_err_shape h
  | none => exact linkKeys_err_shape h

/-- The forward `forEach` over the index set: processes indexes in order,
stopping at the first throw and leaving later indexes untouched. -/
def forwardIxs (olddoc : Option Doc) (C : Doc) : List Ix → List Ix × Option DbErr
  | [] => ([], none)
  | ix :: rest =>
    let s := forwardStep olddoc C ix
    match s.2 with
    | some e => (s.1 :: rest, some e)
    | none =>
      let r := forwardIxs olddoc C rest
      (s.1 :: r.1, r.2)

/-- The rollback `forEach` in the catch handler; a throw inside it would
abort the remaining rollback, so it too stops at the first error. -/
def rollbackIxs (olddoc : Option Doc) (C : Doc) : List Ix → List Ix × Option DbErr
  | [] => ([], none)
  | ix :: rest =>
    let s := rollbackStep olddoc C ix
    match s.2 with
    | some e => (s.1 :: rest, some e)
    | none =>
      let r := rollbackIxs olddoc C rest
      (s.1 :: r.1, r.2)

/-- The whole try/catch of `Datastore.addDoc`, restricted to its effect on
the index set: on success the forward pass's state stands; on a throw the
rollback handler runs over every index and the original error is re-thrown
(an error raised inside the rollback itself would replace it). -/
def addDocIndexes (olddoc : Option Doc) (C : Doc) (ixs : List Ix) :
    List Ix × Option DbErr :=
  let f := forwardIxs olddoc C ixs
  match f.2 with
  | none => (f.1, none)
  | some e =>
    let r := rollbackIxs olddoc C f.1
    (r.1, some (r.2.getD e))

/-- Indexes pairwise holding the same links. -/
def SameLinks (a b : Ix) : Prop := ∀ k d', a.Linked k d' ↔ b.Linked k d'

theorem rollbackIxs_untouched (olddoc : Option Doc) (C : Doc) (ixs : List Ix)
    (hpre : ∀ ix ∈ ixs, RollbackPre ix olddoc C) :
    (rollbackIxs olddoc C ixs).2 = none ∧
      List.Forall₂ SameLinks (rollbackIxs olddoc C ixs).1 ixs := by
  induction ixs with
  | nil => exact ⟨rfl, List.Forall₂.nil⟩
  | cons ix rest ih =>
    obtain ⟨hnone, hiff⟩ := rollbackStep_untouched ix olddoc C
      (hpre ix (List.mem_cons_self _ _))
    obtain ⟨hrnone, hriff⟩ := ih (fun i hi => hpre i (List.mem_cons_of_mem _ hi))
    have hrun : rollbackIxs olddoc C (ix :: rest) =
        ((rollbackStep olddoc C ix).1 :: (rollbackIxs olddoc C rest).1,
          (rollbackIxs olddoc C rest).2) := by
      simp only [rollbackIxs, hnone]
    rw [hrun]
    exact ⟨hrnone, List.Forall₂.cons hiff hriff⟩

theorem forwardIxs_err_shape {olddoc : Option Doc} {C : Doc} {ixs : List Ix}
    {e : DbErr} (h : (forwardIxs olddoc C ixs).2 = some e) :
    ∃ fn, e = .keyViolation C fn := by
  induction ixs with
  | nil => cases h
  | cons ix rest ih =>
    cases hf : (forwardStep olddoc C ix).2 with
    | some e0 =>
      have hrunF : forwardIxs olddoc C (ix :: rest) =
          ((forwardStep olddoc C ix).1 :: rest, some e0) := by
        simp only [forwardIxs, hf]
      rw [hrunF] at h
      cases h
      exact forwardStep_err_shape hf
    | none =>
      have hrunF : forwardIxs olddoc C (ix :: rest) =
          ((forwardStep olddoc C ix).1 :: (forwardIxs olddoc C rest).1,
            (forwardIxs olddoc C rest).2) := by
        simp only [forwardIxs, hf]
      rw [hrunF] at h
      exact ih h

theorem rollbackIxs_after_forward (olddoc : Option Doc) (C : Doc) (ixs : List Ix)
    (hpre : ∀ ix ∈ ixs, RollbackPre ix olddoc C) {e : DbErr}
    (herr : (forwardIxs olddoc C ixs).2 = some e) :
    (rollbackIxs olddoc C (forwardIxs olddoc C ixs).1).2 = none ∧
      List.Forall₂ SameLinks (rollbackIxs olddoc C (forwardIxs olddoc C ixs).1).1 ixs := by
  induction ixs with
  | nil => cases herr
  | cons ix rest ih =>
    obtain ⟨hRnone, hRiff⟩ := rollbackStep_after_forward ix olddoc C
      (hpre ix (List.mem_cons_self _ _))
    cases hf : (forwardStep olddoc C ix).2 with
    | some e0 =>
      have hrunF : forwardIxs olddoc C (ix :: rest) =
          ((forwardStep olddoc C ix).1 :: rest, some e0) := by
        simp only [forwardIxs, hf]
      rw [hrunF]
      have hrunR : rollbackIxs olddoc C ((forwardStep olddoc C ix).1 :: rest) =
          ((rollbackStep olddoc C (forwardStep olddoc C ix).1).1 ::
            (rollbackIxs olddoc C rest).1, (rollbackIxs olddoc C rest).2) := by
        simp only [rollbackIxs, hRnone]
      rw [hrunR]
      obtain ⟨hr2, hr3⟩ := rollbackIxs_untouched olddoc C rest
        (fun i hi => hpre i (List.mem_cons_of_mem _ hi))
      exact ⟨hr2, List.Forall₂.cons hRiff hr3⟩
    | none =>
      have hrunF : forwardIxs olddoc C (ix :: rest) =
          ((forwardStep olddoc C ix).1 :: (forwardIxs olddoc C rest).1,
            (forwardIxs olddoc C rest).2) := by
        simp only [forwardIxs, hf]
      rw [hrunF] at herr ⊢
      dsimp only at herr ⊢
      obtain ⟨hr2, hr3⟩ := ih (fun i hi => hpre i (List.mem_cons_of_mem _ hi)) herr
      have hrunR : rollbackIxs olddoc C
          ((forwardStep olddoc C ix).1 :: (forwardIxs olddoc C rest).1) =
          ((rollbackStep olddoc C (forwardStep olddoc C ix).1).1 ::
            (rollbackIxs olddoc C (forwardIxs olddoc C rest).1).1,
            (rollbackIxs olddoc C (forwardIxs olddoc C rest).1).2) := by
        simp only [rollbackIxs, hRnone]
      rw [hrunR]
      exact ⟨hr2, List.Forall₂.cons hRiff hr3⟩

theorem forall₂_sameLinks_mem_left {l1 l2 : List Ix} (h : List.Forall₂ SameLinks l1 l2)
    {a : Ix} (ha : a ∈ l1) : ∃ b ∈ l2, SameLinks a b := by
  induction h with
  | nil => cases ha
  | cons hr ht ih =>
    rcases List.mem_cons.mp ha with rfl | ha2
    · exact ⟨_, List.mem_cons_self _ _, hr⟩
    · obtain ⟨b, hb1, hb2⟩ := ih ha2
      exact ⟨b, List.mem_cons_of_mem _ hb1, hb2⟩

/-- Claim C1 (confirmed): for every index set in a state the store can
reach (`RollbackPre`: well-formed maps, a fresh frozen candidate `C`, an
`olddoc` linked exactly as a live record), if the forward pass of `addDoc`
throws while linking `C`, then the error is a `KeyViolation` for `C`, the
rollback handler itself raises nothing so that very error propagates, and
afterwards every index holds exactly the links it held before the call —
in particular `C` is linked in no index, and the old record (if any) is
linked exactly as it was. -/
theorem claim_C1_rollback_atomicity (ixs : List Ix) (C : Doc) (olddoc : Option Doc)
    (hpre : ∀ ix ∈ ixs, RollbackPre ix olddoc C)
    (herr : (forwardIxs olddoc C ixs).2.isSome) :
    (∃ fn, (addDocIndexes olddoc C ixs).2 = some (.keyViolation C fn)) ∧
      (addDocIndexes olddoc C ixs).2 = (forwardIxs olddoc C ixs).2 ∧
      List.Forall₂ SameLinks (addDocIndexes olddoc C ixs).1 ixs ∧
      ∀ ix' ∈ (addDocIndexes olddoc C ixs).1, ∀ k, ¬ix'.Linked k C := by
  obtain ⟨e, he⟩ := Option.isSome_iff_exists.mp herr
  obtain ⟨hr2, hr3⟩ := rollbackIxs_after_forward olddoc C ixs hpre he
  have hrun : addDocIndexes olddoc C ixs =
      ((rollbackIxs olddoc C (forwardIxs olddoc C ixs).1).1,
        some (((rollbackIxs olddoc C (forwardIxs olddoc C ixs).1).2).getD e)) := by
    simp only [addDocIndexes, he]
  rw [hrun, hr2]
  refine ⟨?_, ?_, hr3, ?_⟩
  · obtain ⟨fn, hfn⟩ := forwardIxs_err_shape he
    exact ⟨fn, by subst hfn; rfl⟩
  · rw [he]
    rfl
  · intro ix' hix' k
    obtain ⟨b, hb1, hb2⟩ := forall₂_sameLinks_mem_left hr3 hix'
    rw [hb2 k C]
    exact freshDoc_not_linked (hpre b hb1).2.1 k

/-- The record already stored in the C1 witness scenario. -/
def c1E1 : Doc := ⟨1, [("_id", .prim (.intv 1)), ("foo", .prim (.strv "x"))]⟩

/-- The candidate whose insertion violates the unique `foo` index. -/
def c1C : Doc := ⟨2, [("_id", .prim (.intv 2)), ("foo", .prim (.strv "x"))]⟩

/-- The index set of the C1 witness: the primary index on `_id` and a
unique secondary index on `foo`, both holding `c1E1`. -/
def c1Ixs : List Ix :=
  [⟨⟨"_id", true, false⟩, .uni [(.intv 1, c1E1)]⟩,
   ⟨⟨"foo", true, false⟩, .uni [(.strv "x", c1E1)]⟩]

/-- Witness for claim C1: inserting `c1C` (no old doc) links it into the
primary index, then throws on the unique `foo` index; the theorem applies
and rollback restores both indexes. -/
theorem claim_C1_witness :
    (∀ ix ∈ c1Ixs, RollbackPre ix none c1C) ∧
      ((forwardIxs none c1C c1Ixs).2.isSome ∧
        ((∃ fn, (addDocIndexes none c1C c1Ixs).2 = some (.keyViolation c1C fn)) ∧
          (addDocIndexes none c1C c1Ixs).2 = (forwardIxs none c1C c1Ixs).2 ∧
          List.Forall₂ SameLinks (addDocIndexes none c1C c1Ixs).1 c1Ixs ∧
          ∀ ix' ∈ (addDocIndexes none c1C c1Ixs).1, ∀ k, ¬ix'.Linked k c1C)) :=
  ⟨by decide, by decide,
    claim_C1_rollback_atomicity c1Ixs c1C none (by decide) (by decide)⟩

/-- A record used in the C9 witness. -/
def c9A : Doc := ⟨1, [("tags", .arr [.strv "p", .strv "q"])]⟩

/-- A second record used in the C9 witness. -/
def c9B : Doc := ⟨2, [("tags", .arr [.strv "q", .strv "r"])]⟩

/-- Witness for claim C9 at a concrete input: a generic index over `tags`
holding `c9A`, to which `c9B` is added and `c9A` then removed. -/
theorem claim_C9_witness :
    (Ix.mk ⟨"tags", false, false⟩
        (.multi [(.strv "p", [c9A]), (.strv "q", [c9A])])).data =
        .multi [(.strv "p", [c9A]), (.strv "q", [c9A])] ∧
    (Ix.mk ⟨"tags", false, false⟩
        (.multi [(.strv "p", [c9A]), (.strv "q", [c9A])])).Inv ∧
    ((Ix.applyOps (Ix.mk ⟨"tags", false, false⟩
          (.multi [(.strv "p", [c9A]), (.strv "q", [c9A])]))
        [.add c9B, .remove c9A]).Inv ∧
      (∀ v, (Ix.applyOps (Ix.mk ⟨"tags", false, false⟩
            (.multi [(.strv "p", [c9A]), (.strv "q", [c9A])]))
          [.add c9B, .remove c9A]).find v ≠ [] ↔
          (Ix.applyOps (Ix.mk ⟨"tags", false, false⟩
            (.multi [(.strv "p", [c9A]), (.strv "q", [c9A])]))
          [.add c9B, .remove c9A]).hasKey v) ∧
      (∀ v d, alookup [(Key.strv "p", [c9A]), (Key.strv "q", [c9A])] v = some [d] →
        ¬((Ix.mk ⟨"tags", false, false⟩
            (.multi [(.strv "p", [c9A]), (.strv "q", [c9A])])).unlinkValueFromDoc v d).hasKey v)) :=
  ⟨rfl, by decide,
    claim_C9_multi_index_invariant _ [(.strv "p", [c9A]), (.strv "q", [c9A])] rfl
      (by decide) [.add c9B, .remove c9A]⟩

/-! ## Primary-key generation (`src/util.mjs`)

`getId(row, existing)` hashes `stringify(row)` with a rolling 32-bit hash
and probes `((start + n) & 0x7fffffff).toString(36)` for `n = 0 .. 1e8`,
returning the first id not in `existing`; exhaustion throws (modelled as
`none`).  JavaScript's `&` coerces through ToInt32, so the hash lives in
the signed 32-bit range and the probe is the low 31 bits. -/

/-- JavaScript ToInt32: reduce an integer into `[-2^31, 2^31)`. -/
def toInt32 (x : Int) : Int := (x + 2 ^ 31) % 2 ^ 32 - 2 ^ 31

/-- `ch.charCodeAt(0)` where `ch` ranges over the code points produced by
`Array.from(string)`: the code point itself in the BMP, else its high
surrogate. -/
def codeUnit0 (c : Char) : Nat :=
  if c.toNat < 0x10000 then c.toNat else 0xD800 + (c.toNat - 0x10000) / 0x400

/-- One step of `hashString`: `((h << 5) - h + cu) & 0xffffffff`.  `<<`
itself coerces through ToInt32. -/
def hashStep (h : Int) (cu : Nat) : Int := toInt32 (toInt32 (h * 32) - h + cu)

/-- `hashString(string)`. -/
def hashString (s : String) : Int :=
  s.data.foldl (fun h c => hashStep h (codeUnit0 c)) 0

/-- The UTF-8 encoding of one code point — the "bytes" reading of the
claim's rolling-hash formula. -/
def utf8Bytes (c : Char) : List Nat :=
  let n := c.toNat
  if n < 0x80 then [n]
  else if n < 0x800 then [0xC0 + n / 0x40, 0x80 + n % 0x40]
  else if n < 0x10000 then
    [0xE0 + n / 0x1000, 0x80 + (n / 0x40) % 0x40, 0x80 + n % 0x40]
  else
    [0xF0 + n / 0x40000, 0x80 + (n / 0x1000) % 0x40, 0x80 + (n / 0x40) % 0x40,
      0x80 + n % 0x40]

/-- The claim's reading of the hash: the same rolling formula, but over the
UTF-8 bytes of the serialization. -/
def hashStringBytes (s : String) : Int :=
  (s.data.flatMap utf8Bytes).foldl hashStep 0

/-- One digit of `Number.prototype.toString(36)` (lowercase). -/
def base36digit (n : Nat) : Char :=
  if n < 10 then Char.ofNat (48 + n) else Char.ofNat (87 + n)

def toBase36Aux : Nat → Nat → List Char
  | 0, _ => []
  | fuel + 1, n => if n = 0 then [] else toBase36Aux fuel (n / 36) ++ [base36digit (n % 36)]

/-- `n.toString(36)` for a non-negative number. -/
def toBase36 (n : Nat) : String := if n = 0 then "0" else ⟨toBase36Aux n n⟩

/-- The candidate id at probe `n`: `((start + n) & 0x7fffffff).toString(36)`.
Masking the low 31 bits of a ToInt32 value is reduction mod `2^31`. -/
def idAt (start : Int) (n : Nat) : String := toBase36 ((start + n) % 2 ^ 31).toNat

/-- The probe loop of `getId`, with explicit fuel (`1e8` at the call site).
`existing.has(id)` looks the string id up among the `Map`'s keys. -/
def getIdFrom (start : Int) (used : List Key) : Nat → Nat → Option String
  | _, 0 => none
  | n, fuel + 1 =>
    if Key.strv (idAt start n) ∈ used then getIdFrom start used (n + 1) fuel
    else some (idAt start n)

/-- `getId(row, existing)` applied to the canonical serialization `s` of the
row (`stringify(row)`) and the key set of the primary index. -/
def getId (s : String) (used : List Key) : Option String :=
  getIdFrom (hashString s) used 0 (10 ^ 8)

theorem getIdFrom_spec (start : Int) (used : List Key) (fuel n₀ : Nat) :
    (∀ id, getIdFrom start used n₀ fuel = some id ↔
      ∃ j, j < fuel ∧ id = idAt start (n₀ + j) ∧
        Key.strv (idAt start (n₀ + j)) ∉ used ∧
        ∀ i < j, Key.strv (idAt start (n₀ + i)) ∈ used) ∧
    (getIdFrom start used n₀ fuel = none ↔
      ∀ j < fuel, Key.strv (idAt start (n₀ + j)) ∈ used) := by
  induction fuel generalizing n₀ with
  | zero =>
    constructor
    · intro id
      constructor
      · intro h; cases h
      · rintro ⟨j, hj, -⟩
        cases hj
    · simp [getIdFrom]
  | succ fuel ih =>
    obtain ⟨ih1, ih2⟩ := ih (n₀ + 1)
    by_cases hbusy : Key.strv (idAt start n₀) ∈ used
    · have hrun : getIdFrom start used n₀ (fuel + 1) =
          getIdFrom start used (n₀ + 1) fuel := by
        simp only [getIdFrom, if_pos hbusy]
      constructor
      · intro id
        rw [hrun, ih1 id]
        constructor
        · rintro ⟨j, hj, h1, h2, h3⟩
          refine ⟨j + 1, by omega, by rw [show n₀ + (j + 1) = n₀ + 1 + j from by omega]; exact h1,
            by rw [show n₀ + (j + 1) = n₀ + 1 + j from by omega]; exact h2, ?_⟩
          intro i hi
          cases i with
          | zero => simpa using hbusy
          | succ i =>
            rw [show n₀ + (i + 1) = n₀ + 1 + i from by omega]
            exact h3 i (by omega)
        · rintro ⟨j, hj, h1, h2, h3⟩
          cases j with
          | zero => exact absurd hbusy (by simpa using h2)
          | succ j =>
            refine ⟨j, by omega, by rw [show n₀ + 1 + j = n₀ + (j + 1) from by omega]; exact h1,
              by rw [show n₀ + 1 + j = n₀ + (j + 1) from by omega]; exact h2, ?_⟩
            intro i hi
            rw [show n₀ + 1 + i = n₀ + (i + 1) from by omega]
            exact h3 (i + 1) (by omega)
      · rw [hrun, ih2]
        constructor
        · intro h j hj
          cases j with
          | zero => simpa using hbusy
          | succ j =>
            rw [show n₀ + (j + 1) = n₀ + 1 + j from by omega]
            exact h j (by omega)
        · intro h j hj
          rw [show n₀ + 1 + j = n₀ + (j + 1) from by omega]
          exact h (j + 1) (by omega)
    · have hrun : getIdFrom start used n₀ (fuel + 1) = some (idAt start n₀) := by
        simp only [getIdFrom, if_neg hbusy]
      constructor
      · intro id
        rw [hrun]
        constructor
        · intro h
          cases h
          exact ⟨0, by omega, by simp, by simpa using hbusy, by omega⟩
        · rintro ⟨j, hj, h1, h2, h3⟩
          cases j with
          | zero => simpa using congrArg some h1.symm
          | succ j => exact absurd (h3 0 (by omega)) (by simpa using hbusy)
      · rw [hrun]
        constructor
        · intro h; cases h
        · intro h
          exact absurd (by simpa using h 0 (by omega)) hbusy

/-- Claim C7 (amended): the generated key is deterministic — it is the
base-36 encoding of `(hash + n) mod 2^31`, where `hash` is the 32-bit
rolling hash `h = (h << 5) - h + codeUnit` over the UTF-16 code units
(first unit of each code point) of the record's canonical serialization,
and `n` is the smallest value in `[0, 10^8)` whose slot is not already a
live primary key; if all `10^8` probes are occupied, a hard error is
raised. -/
theorem claim_C7_generated_id (s : String) (used : List Key) :
    (∀ id, getId s used = some id ↔
      ∃ n, n < 10 ^ 8 ∧ id = toBase36 ((hashString s + n) % 2 ^ 31).toNat ∧
        Key.strv (idAt (hashString s) n) ∉ used ∧
        ∀ m < n, Key.strv (idAt (hashString s) m) ∈ used) ∧
    (getId s used = none ↔ ∀ n < 10 ^ 8, Key.strv (idAt (hashString s) n) ∈ used) := by
  obtain ⟨h1, h2⟩ := getIdFrom_spec (hashString s) used (10 ^ 8) 0
  constructor
  · intro id
    rw [getId, h1 id]
    constructor
    · rintro ⟨j, hj, ha, hb, hc⟩
      exact ⟨j, hj, by simpa [idAt] using ha, by simpa using hb,
        fun m hm => by simpa using hc m hm⟩
    · rintro ⟨n, hn, ha, hb, hc⟩
      exact ⟨n, hn, by simpa [idAt] using ha, by simpa using hb,
        fun i hi => by simpa using hc i hi⟩
  · rw [getId, h2]
    constructor
    · intro h n hn
      simpa using h n hn
    · intro h j hj
      simpa using h j hj

/-- Claim C7 counterexample: on the serialization `"é"` (a single non-ASCII
code point) the code hashes the UTF-16 code unit `0xE9`, yielding the id
`"6h"`, while the claim's byte-level formula hashes the UTF-8 bytes
`0xC3 0xA9`, predicting `"4sm"` — so the generated key is not the base-36
encoding of `(byte-hash + n) mod 2^31`. -/
theorem claim_C7_counterexample :
    getId "é" [] = some "6h" ∧
      toBase36 ((hashStringBytes "é" + 0) % 2 ^ 31).toNat = "4sm" ∧
      ("6h" : String) ≠ "4sm" := by
  refine ⟨?_, ?_, by decide⟩ <;> rfl

/-- Witness for the amended claim C7 at a concrete input: the id generated
for the serialization `"é"` against an empty primary index. -/
theorem claim_C7_witness :
    (∀ id, getId "é" [] = some id ↔
      ∃ n, n < 10 ^ 8 ∧ id = toBase36 ((hashString "é" + n) % 2 ^ 31).toNat ∧
        Key.strv (idAt (hashString "é") n) ∉ [] ∧
        ∀ m < n, Key.strv (idAt (hashString "é") m) ∈ ([] : List Key)) ∧
    (getId "é" [] = none ↔ ∀ n < 10 ^ 8, Key.strv (idAt (hashString "é") n) ∈ ([] : List Key)) :=
  claim_C7_generated_id "é" []

/-! ## The record codec's serialization, for key generation

`getId` hashes `stringify(row)`.  `stringify` is `JSON.stringify` with the
date replacer; on the flat records of this model (no date values) it is
plain JSON serialization: fields in insertion order, `undefined`-valued
fields dropped (inside arrays `undefined` serializes as `null`), strings
quoted with standard JSON escapes. -/

def hexDigit (n : Nat) : Char := if n < 10 then Char.ofNat (48 + n) else Char.ofNat (87 + n)

def escapeJsonChar (c : Char) : List Char :=
  if c = '"' then ['\\', '"']
  else if c = '\\' then ['\\', '\\']
  else if c = '\x08' then ['\\', 'b']
  else if c = '\x0c' then ['\\', 'f']
  else if c = '\n' then ['\\', 'n']
  else if c = '\r' then ['\\', 'r']
  else if c = '\t' then ['\\', 't']
  else if c.toNat < 0x20 then
    ['\\', 'u', '0', '0', hexDigit (c.toNat / 16), hexDigit (c.toNat % 16)]
  else [c]

def quoteJson (s : String) : String :=
  "\"" ++ ⟨s.data.flatMap escapeJsonChar⟩ ++ "\""

def stringifyKeyPrim : Key → String
  | .undefv => "null"
  | .null => "null"
  | .boolv b => if b then "true" else "false"
  | .intv n => toString n
  | .strv s => quoteJson s

def stringifyVal : Val → Option String
  | .prim .undefv => none
  | .prim k => some (stringifyKeyPrim k)
  | .arr ks => some ("[" ++ String.intercalate "," (ks.map stringifyKeyPrim) ++ "]")

/-- `stringify(doc)` on a flat record. -/
def docSerial (d : Doc) : String :=
  "\x7b" ++ String.intercalate ","
      (d.fields.filterMap fun p =>
        (stringifyVal p.2).map fun v => quoteJson p.1 ++ ":" ++ v) ++ "\x7d"

/-- `cleanObject(obj)`: drop fields whose value is `undefined`. -/
def cleanObject (d : Doc) : Doc :=
  { d with fields := d.fields.filter fun p => p.2 ≠ .prim .undefv }

def Doc.hasField (d : Doc) (f : String) : Bool :=
  (d.fields.find? fun p => p.1 = f).isSome

/-- In-place field assignment (`doc[idField] = ...`): keeps the field's
position. -/
def Doc.setField (d : Doc) (f : String) (v : Val) : Doc :=
  { d with fields := d.fields.map fun p => if p.1 = f then (p.1, v) else p }

/-! ## The datastore (`src/datastore.mjs`)

Indexes live in a name-keyed table whose first entry is the mandatory
primary index (`empty()` installs `Index.create({name: 'primary', fields:
['_id']})`).  The fields-based index class this revision instantiates is
not among the sources — `src/dbindex.mjs` is its single-field
predecessor — so its behavior is modelled from the spec where needed (see
`MjsIx.create` and `Datastore.primLookup`). -/

/-- An index descriptor of this revision: `{name, fields, unique, sparse}`
(`ensureIndex` normalizes a `field` option into `fields: [field]`). -/
structure MjsOpts where
  name : String
  fields : List String
  unique : Bool := false
  sparse : Bool := false
deriving DecidableEq, Repr

/-- A named index: its descriptor plus its backing store. -/
structure MjsIx where
  options : MjsOpts
  ix : Ix
deriving DecidableEq, Repr

/-- Modelled from the spec: the fields-based index class is missing from
the tree.  Per the spec an index maps a record's value at its indexed
field to the record, and the primary index is always unique; every index
this development exercises has exactly one field, where the class must
behave as `dbindex.mjs` with `fieldName = fields[0]` — that behavior is
reused here. -/
def MjsIx.create (options : MjsOpts) : MjsIx :=
  { options := options,
    ix := Ix.create
      { fieldName := options.fields.headI, unique := options.unique,
        sparse := options.sparse } }

def MjsIx.addDoc (mix : MjsIx) (d : Doc) : MjsIx × Option DbErr :=
  ((fun p => ({ mix with ix := p.1 }, p.2)) (mix.ix.addDoc d))

def MjsIx.removeDoc (mix : MjsIx) (d : Doc) : MjsIx :=
  { mix with ix := mix.ix.removeDoc d }

/-- The datastore state: the name-keyed index table.  `removeIndex` sets
the slot to `undefined`; the table models the defined entries (lookups
treat `undefined` and absent alike). -/
structure DS where
  indexes : List (String × MjsIx)
deriving DecidableEq, Repr

/-- `empty()`: a table holding just the primary index.  The source passes
no `unique` flag — the spec's primary index is unique, and the model makes
that explicit. -/
def Datastore.empty : DS :=
  ⟨[("primary", MjsIx.create ⟨"primary", ["_id"], true, false⟩)]⟩

/-- `allDocs()`: `[...this.indexes.primary.data.values()]`.  The primary
index is always the unique variant, whose values are the live records. -/
def Datastore.allDocs (ds : DS) : List Doc :=
  match alookup ds.indexes "primary" with
  | some mix =>
    match mix.ix.data with
    | .uni m => m.map Prod.snd
    | .multi _ => []
  | none => []

/-- The key set of the primary index (`this.indexes.primary.data`, as
consulted by `getId`'s `existing.has(id)`). -/
def Datastore.primKeys (ds : DS) : List Key :=
  match alookup ds.indexes "primary" with
  | some mix =>
    match mix.ix.data with
    | .uni m => m.map Prod.fst
    | .multi m => m.map Prod.fst
  | none => []

/-- Modelled from the spec: `addDoc`/`removeDoc` call
`this.indexes.primary.findOne(doc)`, and the spec's upsert algorithm reads
this as "look up the existing record by the candidate's primary key"
(`E := P.findOne(C[primary-field])`).  A record whose key field holds an
array can never match a `Map` key and finds nothing. -/
def Datastore.primLookup (ds : DS) (d : Doc) : Option Doc :=
  match alookup ds.indexes "primary" with
  | some mix =>
    (match mix.ix.data with
     | .uni m =>
       (match d.valOf mix.ix.opts.fieldName with
        | .prim k => alookup m k
        | .arr _ => none)
     | .multi _ => none)
  | none => none

/-- Back-fill loop of `addIndex`:
`this.allDocs().forEach(doc => ix.addDoc(doc))` — a unique-constraint
throw aborts it. -/
def backfillDocs (mix : MjsIx) : List Doc → MjsIx × Option DbErr
  | [] => (mix, none)
  | d :: tl =>
    let s := mix.addDoc d
    match s.2 with
    | some e => (s.1, some e)
    | none => backfillDocs s.1 tl

/-- Set-or-append on the name table (`this.indexes[name] = ix`). -/
def ssetOrPush (m : List (String × MjsIx)) (k : String) (v : MjsIx) :
    List (String × MjsIx) :=
  if (alookup m k).isSome then aset m k v else m ++ [(k, v)]

/-- `addIndex(options)`: create the index, back-fill it from all live
records (a `KeyViolation` discards the partially built index and
propagates), then install it under its name. -/
def Datastore.addIndex (ds : DS) (options : MjsOpts) :
    Except DbErr (MjsIx × DS) :=
  let ix0 := MjsIx.create options
  let r := backfillDocs ix0 (Datastore.allDocs ds)
  match r.2 with
  | some e => .error e
  | none => .ok (r.1, ⟨ssetOrPush ds.indexes options.name r.1⟩)

/-- `String.fromCharCode(31)`, the `fields.join(SEP)` separator. -/
def SEP : String := ⟨[Char.ofNat 31]⟩

def sepJoin (xs : List String) : String := String.intercalate SEP xs

/-- `ensureIndex(options)` (after `field → fields` normalization): return
silently when an index of this name over the same joined field list already
exists — regardless of its `unique`/`sparse` options — else build the index
and append its `$$addIndex` line. -/
def Datastore.ensureIndex (ds : DS) (options : MjsOpts) :
    Except DbErr (DS × List MjsOpts) :=
  match alookup ds.indexes options.name with
  | some existing =>
    if sepJoin existing.options.fields = sepJoin options.fields then .ok (ds, [])
    else
      match Datastore.addIndex ds options with
      | .ok (ixN, ds') => .ok (ds', [ixN.options])
      | .error e => .error e
  | none =>
    match Datastore.addIndex ds options with
    | .ok (ixN, ds') => .ok (ds', [ixN.options])
    | .error e => .error e

/-- A parsed log line (`hydrate` dispatches on the sentinel key; `rewrite`
and `append` emit these shapes). -/
inductive LogEntry where
  | addIndex : MjsOpts → LogEntry
  | deleteIndex : String → LogEntry
  | deleted : Doc → LogEntry
  | record : Doc → LogEntry
deriving DecidableEq, Repr

/-- `deleteIndex(name)`: the primary index is silently skipped; a missing
index raises `NoIndex`; otherwise the index is detached and a
`$$deleteIndex` line appended. -/
def Datastore.deleteIndex (ds : DS) (name : String) :
    Except DbErr (DS × List LogEntry) :=
  if name = "primary" then .ok (ds, [])
  else if (alookup ds.indexes name).isSome then
    .ok (⟨aerase ds.indexes name⟩, [.deleteIndex name])
  else .error (.noIndex name)

/-- Pair the updated `Ix` states of `addDocIndexes` back with their
names. -/
def zipBackIxs : List (String × MjsIx) → List Ix → List (String × MjsIx)
  | (n, mix) :: tl, ix' :: tl' => (n, { mix with ix := ix' }) :: zipBackIxs tl tl'
  | _, _ => []

/-- `Datastore.addDoc(doc, {mustExist, mustNotExist})`: mode checks against
the primary lookup, primary-key generation when the id field is present
and null-ish, `cleanObject` + `Object.freeze`, then the multi-index link
loop with rollback (`addDocIndexes`).  On a throw the store is left rolled
back (see `claim_C1_rollback_atomicity`) and the error propagates. -/
def Datastore.addDoc (ds : DS) (d : Doc) (mustExist mustNotExist : Bool) :
    Except DbErr (DS × Doc) :=
  let olddoc := Datastore.primLookup ds d
  if olddoc.isNone ∧ mustExist then .error (.notExists d)
  else if olddoc.isSome ∧ mustNotExist then .error (.keyViolation d "primary")
  else
    let primFields :=
      ((alookup ds.indexes "primary").map fun mix => mix.options.fields).getD []
    let idStep : Except DbErr Doc :=
      match primFields with
      | [f] =>
        if d.hasField f && (match d.valOf f with
            | .prim k => k.nullish
            | .arr _ => false) then
          match getId (docSerial d) (Datastore.primKeys ds) with
          | some id => .ok (d.setField f (.prim (.strv id)))
          | none => .error (.jsError "Could not generate unique id")
        else .ok d
      | _ => .ok d
    match idStep with
    | .error e => .error e
    | .ok d1 =>
      let C := cleanObject d1
      let r := addDocIndexes olddoc C (ds.indexes.map fun p => p.2.ix)
      match r.2 with
      | some e => .error e
      | none => .ok (⟨zipBackIxs ds.indexes r.1⟩, C)

/-- `Datastore.removeDoc(doc)`: look the record up by primary key — absent
means `NotExists` — then unlink it from every index. -/
def Datastore.removeDoc (ds : DS) (d : Doc) : Except DbErr (DS × Doc) :=
  match Datastore.primLookup ds d with
  | none => .error (.notExists d)
  | some olddoc =>
    .ok (DS.mk (ds.indexes.map fun p => (p.1, MjsIx.removeDoc p.2 olddoc)), olddoc)

/-- One line of the `hydrate` replay loop.  `addIndex` installs and
back-fills (throws propagate); `deleteIndex` is the un-awaited call to the
async `deleteIndex` — its synchronous prefix removes a present index, while
its `NoIndex` throw only rejects the floating promise, so the loop
continues (the `append` it performs mid-replay is a file-level effect not
modelled here); a `$$deleted` tombstone calls the synchronous `removeDoc`,
whose throw propagates; any other line is an upsert in `any` mode. -/
def Datastore.applyEntry (ds : DS) : LogEntry → Except DbErr DS
  | .addIndex opts =>
    (match Datastore.addIndex ds opts with
     | .ok (_, ds') => .ok ds'
     | .error e => .error e)
  | .deleteIndex name =>
    if name = "primary" then .ok ds
    else if (alookup ds.indexes name).isSome then .ok ⟨aerase ds.indexes name⟩
    else .ok ds
  | .deleted d =>
    (match Datastore.removeDoc ds d with
     | .ok (ds', _) => .ok ds'
     | .error e => .error e)
  | .record d =>
    (match Datastore.addDoc ds d false false with
     | .ok (ds', _) => .ok ds'
     | .error e => .error e)

/-- The replay loop over the parsed, non-empty lines of the file. -/
def Datastore.replay (ds : DS) : List LogEntry → Except DbErr DS
  | [] => .ok ds
  | e :: tl =>
    match Datastore.applyEntry ds e with
    | .ok ds' => Datastore.replay ds' tl
    | .error err => .error err

/-- `hydrate()`: reset to `empty()` and replay the whole file in order. -/
def Datastore.hydrate (entries : List LogEntry) : Except DbErr DS :=
  Datastore.replay Datastore.empty entries

/-- The line sequence `rewrite()` writes to the temp file (before
serialization): one `$$addIndex` line per entry of the index table —
primary included, no filter in this revision — then every live record
(optionally sorted; the unsorted order is modelled). -/
def Datastore.rewriteEntries (ds : DS) : List LogEntry :=
  (ds.indexes.map fun p => LogEntry.addIndex p.2.options) ++
    (Datastore.allDocs ds).map LogEntry.record

/-! ### Claim C2 — replay of a tombstone for an absent key

`hydrate` dispatches a `$$deleted` line to the synchronous `removeDoc`,
which throws `NotExists` when the primary lookup finds nothing, and the
loop has no handler: the failure propagates out of `hydrate` (it is not
silently ignored). -/

theorem replay_append (ds : DS) (l1 l2 : List LogEntry) :
    Datastore.replay ds (l1 ++ l2) =
      match Datastore.replay ds l1 with
      | .ok ds' => Datastore.replay ds' l2
      | .error e => .error e := by
  induction l1 generalizing ds with
  | nil => simp [Datastore.replay]
  | cons e tl ih =>
    cases ha : Datastore.applyEntry ds e with
    | ok ds' =>
      rw [show (e :: tl) ++ l2 = e :: (tl ++ l2) from rfl]
      simp only [Datastore.replay, ha]
      exact ih ds'
    | error err =>
      rw [show (e :: tl) ++ l2 = e :: (tl ++ l2) from rfl]
      simp only [Datastore.replay, ha]

/-- Claim C2 (amended): during replay, a `$$deleted` tombstone whose
record's primary key is not present in the state built so far makes
`hydrate` raise `NotExists` — the failure propagates out of `hydrate`
(aborting the rest of the replay) instead of being silently ignored. -/
theorem claim_C2_tombstone_absent_raises (entries rest : List LogEntry)
    (ds : DS) (d : Doc)
    (hpre : Datastore.replay Datastore.empty entries = .ok ds)
    (habs : Datastore.primLookup ds d = none) :
    Datastore.hydrate (entries ++ LogEntry.deleted d :: rest) =
      .error (.notExists d) := by
  unfold Datastore.hydrate
  rw [replay_append, hpre]
  simp only [Datastore.replay, Datastore.applyEntry, Datastore.removeDoc, habs]

/-- The tombstoned record of the C2 counterexample. -/
def c2D : Doc := ⟨1, [("_id", .prim (.intv 1))]⟩

/-- Claim C2 counterexample: replaying a log holding only a tombstone for
the absent key `1` does not silently ignore it — `hydrate` fails with
`NotExists`, falsifying "a tombstone whose key is absent is silently
ignored, and no deletion failure is ever propagated out of hydrate". -/
theorem claim_C2_counterexample :
    Datastore.hydrate [LogEntry.deleted c2D] = .error (.notExists c2D) := by
  rfl

/-- Witness for the amended claim C2: the empty prefix builds the empty
store, where key `1` is absent; the tombstone then aborts hydrate even
with further lines pending. -/
theorem claim_C2_witness :
    Datastore.replay Datastore.empty [] = .ok Datastore.empty ∧
      Datastore.primLookup Datastore.empty c2D = none ∧
      Datastore.hydrate ([] ++ LogEntry.deleted c2D ::
          [LogEntry.record ⟨2, [("_id", .prim (.intv 2))]⟩]) =
        .error (.notExists c2D) :=
  ⟨rfl, rfl, claim_C2_tombstone_absent_raises [] _ Datastore.empty c2D rfl rfl⟩

/-! ### Claim C3 — layout of the compacted file

`rewrite` in this revision maps `Object.values(this.indexes)` — with no
primary filter — to `$$addIndex` lines and appends the live records.  The
primary index therefore does contribute a line, contrary to the claim. -/

def LogEntry.isAddIndexLine : LogEntry → Bool
  | .addIndex _ => true
  | _ => false

def LogEntry.isRecordLine : LogEntry → Bool
  | .record _ => true
  | _ => false

/-- Claim C3 (amended): the compacted file consists of, first, exactly one
`$$addIndex` line per index of the table — the primary index included —
followed by exactly one line per live record. -/
theorem claim_C3_rewrite_layout (ds : DS) :
    Datastore.rewriteEntries ds =
        (ds.indexes.map fun p => LogEntry.addIndex p.2.options) ++
          (Datastore.allDocs ds).map LogEntry.record ∧
      (Datastore.rewriteEntries ds).countP LogEntry.isAddIndexLine =
        ds.indexes.length ∧
      (Datastore.rewriteEntries ds).countP LogEntry.isRecordLine =
        (Datastore.allDocs ds).length ∧
      (Datastore.rewriteEntries ds).take ds.indexes.length =
        ds.indexes.map fun p => LogEntry.addIndex p.2.options := by
  refine ⟨rfl, ?_, ?_, ?_⟩
  · unfold Datastore.rewriteEntries
    rw [List.countP_append, List.countP_map, List.countP_map]
    have h1 : ∀ l : List (String × MjsIx),
        l.countP (LogEntry.isAddIndexLine ∘ fun p => LogEntry.addIndex p.2.options) =
          l.length := by
      intro l
      induction l with
      | nil => rfl
      | cons hd tl ih =>
        rw [List.countP_cons]
        simp [ih, LogEntry.isAddIndexLine, Function.comp]
    have h2 : ∀ l : List Doc,
        l.countP (LogEntry.isAddIndexLine ∘ LogEntry.record) = 0 := by
      intro l
      induction l with
      | nil => rfl
      | cons hd tl ih =>
        rw [List.countP_cons]
        simp [ih, LogEntry.isAddIndexLine, Function.comp]
    rw [h1, h2]
    omega
  · unfold Datastore.rewriteEntries
    rw [List.countP_append, List.countP_map, List.countP_map]
    have h1 : ∀ l : List (String × MjsIx),
        l.countP (LogEntry.isRecordLine ∘ fun p => LogEntry.addIndex p.2.options) = 0 := by
      intro l
      induction l with
      | nil => rfl
      | cons hd tl ih =>
        rw [List.countP_cons]
        simp [ih, LogEntry.isRecordLine, Function.comp]
    have h2 : ∀ l : List Doc,
        l.countP (LogEntry.isRecordLine ∘ LogEntry.record) = l.length := by
      intro l
      induction l with
      | nil => rfl
      | cons hd tl ih =>
        rw [List.countP_cons]
        simp [ih, LogEntry.isRecordLine, Function.comp]
    rw [h1, h2]
    omega
  · unfold Datastore.rewriteEntries
    rw [show ds.indexes.length =
        (ds.indexes.map fun p => LogEntry.addIndex p.2.options).length from
      (List.length_map _ _).symm]
    exact List.take_left _ _

/-- Claim C3 counterexample: on the freshly opened (empty) store the claim
predicts an empty compaction — no non-primary index, no live record — but
`rewrite` emits the primary index's `$$addIndex` line. -/
theorem claim_C3_counterexample :
    Datastore.rewriteEntries Datastore.empty =
        [LogEntry.addIndex ⟨"primary", ["_id"], true, false⟩] ∧
      ((Datastore.empty.indexes.filter fun p => p.1 != "primary").map
          (fun p => LogEntry.addIndex p.2.options) ++
        (Datastore.allDocs Datastore.empty).map LogEntry.record) = [] ∧
      Datastore.rewriteEntries Datastore.empty ≠
        ((Datastore.empty.indexes.filter fun p => p.1 != "primary").map
          (fun p => LogEntry.addIndex p.2.options) ++
        (Datastore.allDocs Datastore.empty).map LogEntry.record) := by
  refine ⟨rfl, rfl, ?_⟩
  intro h
  cases h

/-! ### Claim C8 — `deleteIndex` policy -/

/-- Claim C8: `deleteIndex(name)` raises `NoIndex` carrying the name
whenever no index with that name exists, while `deleteIndex` of the
primary index returns without error, without changing any state and
without appending to the log. -/
theorem claim_C8_deleteIndex_policy (ds : DS) (name : String) :
    Datastore.deleteIndex ds "primary" = .ok (ds, []) ∧
      (name ≠ "primary" → alookup ds.indexes name = none →
        Datastore.deleteIndex ds name = .error (.noIndex name)) := by
  constructor
  · simp [Datastore.deleteIndex]
  · intro h1 h2
    unfold Datastore.deleteIndex
    rw [if_neg h1, h2]
    simp

/-- Witness for claim C8 on the empty store and the missing name `"foo"`. -/
theorem claim_C8_witness :
    ("foo" : String) ≠ "primary" ∧
      alookup Datastore.empty.indexes "foo" = none ∧
      (Datastore.deleteIndex Datastore.empty "primary" = .ok (Datastore.empty, []) ∧
        Datastore.deleteIndex Datastore.empty "foo" = .error (.noIndex "foo")) :=
  ⟨by decide, rfl,
    (claim_C8_deleteIndex_policy Datastore.empty "foo").1,
    (claim_C8_deleteIndex_policy Datastore.empty "foo").2 (by decide) rfl⟩

/-! ### Claim C10 — `ensureIndex` on an existing index -/

/-- Claim C10: when the table already holds an index under the requested
name over the requested field list, `ensureIndex` returns immediately —
the state is unchanged, nothing is appended to the log, and no index is
rebuilt — even when the requested `unique` or `sparse` options differ from
the existing index's. -/
theorem claim_C10_ensureIndex_existing (ds : DS) (options : MjsOpts)
    (existing : MjsIx)
    (hex : alookup ds.indexes options.name = some existing)
    (hfields : existing.options.fields = options.fields) :
    Datastore.ensureIndex ds options = .ok (ds, []) := by
  unfold Datastore.ensureIndex
  rw [hex]
  dsimp only
  rw [hfields, if_pos rfl]

/-- A store holding a non-unique, non-sparse index on `foo`, for the C10
witness. -/
def c10Ds : DS :=
  ⟨[("primary", MjsIx.create ⟨"primary", ["_id"], true, false⟩),
    ("foo", MjsIx.create ⟨"foo", ["foo"], false, false⟩)]⟩

/-- Witness for claim C10: requesting `foo` again with different `unique`
and `sparse` options still returns immediately with nothing changed. -/
theorem claim_C10_witness :
    alookup c10Ds.indexes "foo" = some (MjsIx.create ⟨"foo", ["foo"], false, false⟩) ∧
      (MjsIx.create ⟨"foo", ["foo"], false, false⟩).options.fields = ["foo"] ∧
      Datastore.ensureIndex c10Ds ⟨"foo", ["foo"], true, true⟩ = .ok (c10Ds, []) :=
  ⟨rfl, rfl,
    claim_C10_ensureIndex_existing c10Ds ⟨"foo", ["foo"], true, true⟩
      (MjsIx.create ⟨"foo", ["foo"], false, false⟩) rfl rfl⟩

/-! ## The record codec (`src/util.mjs` `stringify` / `parse`) — claim C6

`stringify` is `JSON.stringify` with a replacer that rewrites every `Date`
value into `{"$date": iso-string}`; `parse` is `JSON.parse` with a reviver
that rebuilds the `Date` at the `"$date"` pair and replaces any object
containing a `"$date"` member by that member.  The model works on JSON
trees rather than text: JSON text serialization of the tree is injective
and exactly inverted by parsing (integers and escaped strings round-trip
byte-exactly), so tree-level composition models the text round-trip.  A
`Date` value is identified by its ISO-8601 rendering — the `toISOString` /
`new Date(string)` bijection is the external date-literal contract the
spec scopes out. -/

mutual
inductive Jv where
  | null : Jv
  | boolv : Bool → Jv
  | num : Int → Jv
  | str : String → Jv
  | date : String → Jv
  | arr : JvList → Jv
  | obj : JvFields → Jv

inductive JvList where
  | nil : JvList
  | cons : Jv → JvList → JvList

inductive JvFields where
  | nil : JvFields
  | cons : String → Jv → JvFields → JvFields
end

/-- The `$date` sentinel key of `util.mjs`. -/
def DATE : String := "$date"

mutual
/-- `stringify`'s effect on a value: dates become `{"$date": iso}`,
containers recurse, primitives are unchanged. -/
def stringify : Jv → Jv
  | .null => .null
  | .boolv b => .boolv b
  | .num n => .num n
  | .str s => .str s
  | .date s => .obj (.cons DATE (.str s) .nil)
  | .arr xs => .arr (stringifyList xs)
  | .obj fs => .obj (stringifyFields fs)

def stringifyList : JvList → JvList
  | .nil => .nil
  | .cons v tl => .cons (stringify v) (stringifyList tl)

def stringifyFields : JvFields → JvFields
  | .nil => .nil
  | .cons k v tl => .cons k (stringify v) (stringifyFields tl)
end

/-- First member with the given key (JS objects hold no duplicates). -/
def lookupField : JvFields → String → Option Jv
  | .nil, _ => none
  | .cons k v tl, k' => if k = k' then some v else lookupField tl k'

/-- The reviver's second rule: `v && typeof v === 'object' && DATE in v`
replaces the object by its (already revived) `$date` member; arrays and
primitives pass through. -/
def unwrapDate : Jv → Jv
  | .obj fs =>
    (match lookupField fs DATE with
     | some v => v
     | none => .obj fs)
  | v => v

/-- The reviver's first rule, `new Date(v)`.  The encoder only ever emits a
string payload (`toISOString()`), so only the string case is reachable from
a system-produced line; `new Date` on other shapes is an external built-in
outside this model. -/
def mkDate : Jv → Jv
  | .str s => .date s
  | _ => .date ""

mutual
/-- Bottom-up revival of a value's members, as `JSON.parse`'s reviver walk
performs it: each object member is revived and then passed through the
pair rules (`k === "$date"` makes a `Date`; a member holding a
`$date`-object is unwrapped); array members have index keys, so only the
unwrap rule applies to them. -/
def reviveJv : Jv → Jv
  | .arr xs => .arr (reviveList xs)
  | .obj fs => .obj (reviveFields fs)
  | v => v

def reviveList : JvList → JvList
  | .nil => .nil
  | .cons v tl => .cons (unwrapDate (reviveJv v)) (reviveList tl)

def reviveFields : JvFields → JvFields
  | .nil => .nil
  | .cons k v tl =>
    .cons k (if k = DATE then mkDate (reviveJv v) else unwrapDate (reviveJv v))
      (reviveFields tl)
end

/-- `parse(line)`: revive all members bottom-up, then apply the reviver to
the root pair `("", root)` (whose key is not `"$date"`). -/
def parse (v : Jv) : Jv := unwrapDate (reviveJv v)

mutual
/-- No object anywhere in the tree carries a user field named `$date` (the
sentinel must not collide with user field names). -/
def noDateKey : Jv → Bool
  | .arr xs => noDateKeyList xs
  | .obj fs => noDateKeyFields fs
  | _ => true

def noDateKeyList : JvList → Bool
  | .nil => true
  | .cons v tl => noDateKey v && noDateKeyList tl

def noDateKeyFields : JvFields → Bool
  | .nil => true
  | .cons k v tl => !(k == DATE) && noDateKey v && noDateKeyFields tl
end

def hasFieldKey : JvFields → String → Bool
  | .nil, _ => false
  | .cons k _ tl, k' => k == k' || hasFieldKey tl k'

mutual
/-- Every object in the tree has duplicate-free keys (true of every JS
object, hence of every record the system produced). -/
def nodupKeysJv : Jv → Bool
  | .arr xs => nodupKeysList xs
  | .obj fs => nodupKeysFields fs
  | _ => true

def nodupKeysList : JvList → Bool
  | .nil => true
  | .cons v tl => nodupKeysJv v && nodupKeysList tl

def nodupKeysFields : JvFields → Bool
  | .nil => true
  | .cons k v tl => !hasFieldKey tl k && nodupKeysJv v && nodupKeysFields tl
end

theorem lookupField_none_of_noDateKey : ∀ {fs : JvFields},
    noDateKeyFields fs = true → lookupField fs DATE = none
  | .nil, _ => rfl
  | .cons k v tl, h => by
    unfold noDateKeyFields at h
    rw [Bool.and_eq_true, Bool.and_eq_true] at h
    obtain ⟨⟨hk, -⟩, htl⟩ := h
    unfold lookupField
    rw [if_neg (by simpa using hk)]
    exact lookupField_none_of_noDateKey htl

mutual
theorem parse_stringify_jv : ∀ v : Jv, noDateKey v = true →
    unwrapDate (reviveJv (stringify v)) = v
  | .null, _ => rfl
  | .boolv b, _ => rfl
  | .num n, _ => rfl
  | .str s, _ => rfl
  | .date s, _ => by
    simp [stringify, reviveJv, reviveFields, mkDate, unwrapDate, lookupField, DATE]
  | .arr xs, h => by
    simp only [stringify, reviveJv,
      parse_stringify_list xs (by simpa [noDateKey] using h), unwrapDate]
  | .obj fs, h => by
    have h' : noDateKeyFields fs = true := by simpa [noDateKey] using h
    simp only [stringify, reviveJv, parse_stringify_fields fs h', unwrapDate,
      lookupField_none_of_noDateKey h']

theorem parse_stringify_list : ∀ xs : JvList, noDateKeyList xs = true →
    reviveList (stringifyList xs) = xs
  | .nil, _ => rfl
  | .cons v tl, h => by
    unfold noDateKeyList at h
    rw [Bool.and_eq_true] at h
    unfold stringifyList reviveList
    rw [parse_stringify_jv v h.1, parse_stringify_list tl h.2]

theorem parse_stringify_fields : ∀ fs : JvFields, noDateKeyFields fs = true →
    reviveFields (stringifyFields fs) = fs
  | .nil, _ => rfl
  | .cons k v tl, h => by
    unfold noDateKeyFields at h
    rw [Bool.and_eq_true, Bool.and_eq_true] at h
    obtain ⟨⟨hk, hv⟩, htl⟩ := h
    unfold stringifyFields reviveFields
    rw [if_neg (by simpa using hk), parse_stringify_jv v hv,
      parse_stringify_fields tl htl]
end

/-- Claim C6 (confirmed): for every record previously produced by the
system — a frozen object tree with undefined-valued fields already
stripped (the tree has no undefined), field names not colliding with the
`$date` sentinel, and duplicate-free keys as in every JS object — decoding
its encoded single-line form restores the record exactly: `Date` values
round-trip through the `$date` sentinel and `null` is preserved as
`null`. -/
theorem claim_C6_codec_roundtrip (r : Jv)
    (hnd : noDateKey r = true) (hnodup : nodupKeysJv r = true) :
    parse (stringify r) = r :=
  parse_stringify_jv r hnd

/-- Witness for claim C6: a record with an id, a `Date` field, a `null`
field and an array field round-trips exactly. -/
theorem claim_C6_witness :
    noDateKey (Jv.obj (.cons "_id" (.num 1) (.cons "when"
        (.date "2018-01-19T12:34:56.000Z") (.cons "note" .null
        (.cons "tags" (.arr (.cons (.str "a") .nil)) .nil))))) = true ∧
      nodupKeysJv (Jv.obj (.cons "_id" (.num 1) (.cons "when"
        (.date "2018-01-19T12:34:56.000Z") (.cons "note" .null
        (.cons "tags" (.arr (.cons (.str "a") .nil)) .nil))))) = true ∧
      parse (stringify (Jv.obj (.cons "_id" (.num 1) (.cons "when"
        (.date "2018-01-19T12:34:56.000Z") (.cons "note" .null
        (.cons "tags" (.arr (.cons (.str "a") .nil)) .nil)))))) =
        Jv.obj (.cons "_id" (.num 1) (.cons "when"
        (.date "2018-01-19T12:34:56.000Z") (.cons "note" .null
        (.cons "tags" (.arr (.cons (.str "a") .nil)) .nil)))) :=
  ⟨rfl, rfl, claim_C6_codec_roundtrip _ rfl rfl⟩

/-! ## The operation gate (`Datastore.exec` with the FIFO serializer) — claim C5

`src/queue.js` runs submitted jobs one at a time (width 1) in submission
order: a job starts only while `running < width`, otherwise it waits in
the FIFO `waiting` array that `endJob` shifts; `startJob` chains
`resolved.then(fn).then(resolve, reject).then(endJob)`, so `endJob` runs —
and the next waiting job starts — whether the job resolved or rejected.
`Datastore.exec` makes the first-ever submission carry the load
bootstrap — `await lockFile(...)`, `await this.hydrate()`,
`await this.rewrite()`, then the wrapped operation — and sets
`this.loaded = true` *before* that task runs, never resetting it: every
later call submits a plain task.  Inside the boot task a throw in any
phase (the lock file already held, a hydrate replay failure such as a
tombstone for an absent record, a rewrite I/O error) skips the remaining
phases and the wrapped operation, rejecting the first caller's promise;
the plain tasks queued behind it still run, against a store whose
bootstrap never completed.  The model is the cooperative trace semantics
of that serializer, parameterized by which bootstrap phase (if any) is the
first to throw: tasks do not interleave and execute in submission order,
so the trace of a submission list is the concatenation of the tasks'
event lists. -/

/-- A phase of the load bootstrap, in the order `exec` awaits them. -/
inductive BootPhase where
  | lockFile : BootPhase
  | hydrate : BootPhase
  | rewrite : BootPhase
deriving DecidableEq, Repr

/-- An observable event of the gate: a bootstrap phase completing, a
bootstrap phase throwing, and the execution of user operation number `i`
(`insert`, `update`, `find`, … are all submitted the same way). -/
inductive GateEvent where
  | phase : BootPhase → GateEvent
  | fail : BootPhase → GateEvent
  | run : Nat → GateEvent
deriving DecidableEq, Repr

/-- A queued task as `exec` builds it: the bootstrap wrapping the first
operation, or a plain later operation. -/
inductive GateTask where
  | boot : Nat → GateTask
  | plain : Nat → GateTask
deriving DecidableEq, Repr

/-- `exec(fn)` over a list of user operations: the first call (while
`this.loaded` is still false) submits the bootstrap-wrapped task and sets
`loaded`; every later call submits a plain task.  `loaded` is latched
before the boot task runs and never reset, so this split does not depend
on whether the bootstrap later succeeds. -/
def submitAll : List Nat → Bool → List GateTask
  | [], _ => []
  | op :: rest, false => .boot op :: submitAll rest true
  | op :: rest, true => .plain op :: submitAll rest true

/-- The events the boot task performs given which phase (if any) is the
first to throw: each `await`ed phase runs only if every earlier one
succeeded, and the wrapped operation `fn()` runs only after all three —
a throw aborts the rest of the `async` body. -/
def bootEvents : Option BootPhase → Nat → List GateEvent
  | none, i => [.phase .lockFile, .phase .hydrate, .phase .rewrite, .run i]
  | some .lockFile, _ => [.fail .lockFile]
  | some .hydrate, _ => [.phase .lockFile, .fail .hydrate]
  | some .rewrite, _ => [.phase .lockFile, .phase .hydrate, .fail .rewrite]

/-- The events one task performs, in order.  A plain task just runs its
operation: the queue starts it via `.then(resolve, reject).then(endJob)`
even when the job before it rejected. -/
def GateTask.events (o : Option BootPhase) : GateTask → List GateEvent
  | .boot i => bootEvents o i
  | .plain i => [.run i]

/-- The serialized execution trace: width-1 FIFO execution concatenates the
tasks' events in submission order. -/
def runQueue (o : Option BootPhase) (tasks : List GateTask) : List GateEvent :=
  tasks.flatMap (GateTask.events o)

theorem runQueue_plain (o : Option BootPhase) (rest : List Nat) :
    runQueue o (submitAll rest true) = rest.map GateEvent.run := by
  induction rest with
  | nil => rfl
  | cons op rest ih =>
    unfold submitAll runQueue
    unfold runQueue at ih
    simp only [List.flatMap_cons, ih, GateTask.events]
    rfl

/-- Claim C5, counterexample: submit two operations and let `hydrate`
throw (a reachable failure: the replay of a tombstone whose record is
absent).  The trace is lock acquisition, the hydrate failure, then the
second operation — which therefore runs, yet no completed bootstrap
(no successful rewrite phase) exists anywhere in the trace, refuting
"every user operation observes a state in which the load bootstrap has
already completed". -/
theorem claim_C5_counterexample :
    runQueue (some .hydrate) (submitAll [0, 1] false) =
        [.phase .lockFile, .fail .hydrate, .run 1] ∧
      GateEvent.run 1 ∈ runQueue (some .hydrate) (submitAll [0, 1] false) ∧
      GateEvent.phase .rewrite ∉
        runQueue (some .hydrate) (submitAll [0, 1] false) :=
  ⟨rfl, by decide, by decide⟩

/-- Claim C5 (amended): submitted tasks execute one at a time in
submission order — the trace is the concatenation of the tasks' event
lists.  When every bootstrap phase succeeds, the trace opens with lock
acquisition, hydrate and rewrite, in that order, before any user
operation runs: each operation then observes the completed bootstrap.
But `exec` latches `loaded` before the boot task runs, so when a phase
throws, the first operation's body never runs (no `run` event occurs in
the boot task), while every later operation still executes, in
submission order, with no completed bootstrap anywhere in the trace. -/
theorem claim_C5_gate_trace (op : Nat) (rest : List Nat) :
    (runQueue none (submitAll (op :: rest) false) =
        [.phase .lockFile, .phase .hydrate, .phase .rewrite]
          ++ (op :: rest).map GateEvent.run) ∧
      ∀ f : BootPhase,
        runQueue (some f) (submitAll (op :: rest) false) =
            bootEvents (some f) op ++ rest.map GateEvent.run ∧
          (∀ i : Nat, GateEvent.run i ∉ bootEvents (some f) op) ∧
          GateEvent.phase .rewrite ∉
            runQueue (some f) (submitAll (op :: rest) false) := by
  have hq : ∀ o : Option BootPhase,
      runQueue o (submitAll (op :: rest) false) =
        bootEvents o op ++ rest.map GateEvent.run := by
    intro o
    unfold submitAll runQueue
    simp only [List.flatMap_cons, GateTask.events]
    rw [show (submitAll rest true).flatMap (GateTask.events o) =
        runQueue o (submitAll rest true) from rfl]
    rw [runQueue_plain o rest]
  refine ⟨by rw [hq none]; rfl, fun f => ⟨hq (some f), ?_, ?_⟩⟩
  · intro i
    cases f <;> simp [bootEvents]
  · rw [hq (some f)]
    cases f <;> simp [bootEvents]

end Jsdb
